import Mathlib

/-!
# leptjson (tutorial02): literals and numbers

A shallow embedding of `src/tutorial02/leptjson.c` and proofs about it.

Conventions of the embedding

* A C string is the list of its characters before the terminating NUL.  The
  pointer `c->json` is the list of characters that remain to be read, so that
  `p++` is `List.tail` and `p += k` is `List.drop k`.  Reading `*p` at the end
  of the list yields the terminator (`peek`).
* A `char` is a `Char`.  The source compares characters with ASCII constants
  only, so every other character behaves like any byte that is none of them.
* `assert` aborts the program: a function that contains one returns an
  `Option`, and `none` stands for the abort.
* `double` is an abstract type `F`; the C library calls that
  `lept_parse_number` makes on it are the fields of `Libc F`.
* For the bounds of the reads the functions are embedded a second time
  (`lept_parse_at` and the other `_at` functions), with the cursor as an index
  into the buffer and a read beyond the first terminator left undefined.
-/

set_option autoImplicit false

namespace LeptJson

/-! ## Data model -/

/-- Modelled from the spec: the header `leptjson.h` is not part of the sources;
the spec gives the tags of a value as Null, True, False and Number. -/
inductive lept_type where
  | LEPT_NULL
  | LEPT_FALSE
  | LEPT_TRUE
  | LEPT_NUMBER
  deriving DecidableEq

/-- Modelled from the spec: the closed enumeration of status codes of section 7
(the header `leptjson.h` that declares the constants is not part of the
sources). -/
inductive ParseStatus where
  | LEPT_PARSE_OK
  | LEPT_PARSE_EXPECT_VALUE
  | LEPT_PARSE_INVALID_VALUE
  | LEPT_PARSE_ROOT_NOT_SINGULAR
  | LEPT_PARSE_NUMBER_TOO_BIG
  deriving DecidableEq

open lept_type ParseStatus

/-- Modelled from the spec: `lept_value` of the absent header, a numeric payload
`n` (a `double`, here of the abstract type `F`) and a tag `type`. -/
structure lept_value (F : Type) where
  n : F
  type : lept_type
  deriving DecidableEq

/-- The parsing context of the source: `typedef struct { const char *json; }`. -/
structure lept_context where
  json : List Char
  deriving DecidableEq

/-- The C library as `lept_parse_number` uses it, over an abstract type `F` of
doubles. -/
structure Libc (F : Type) where
  /-- The call `strtod(s, NULL)` made with `errno = 0`: the converted value, and
  whether `errno == ERANGE` holds afterwards. -/
  strtod : List Char → F × Bool
  /-- The constant `HUGE_VAL`. -/
  HUGE_VAL : F
  /-- Unary minus on doubles. -/
  neg : F → F
  /-- The comparison `==` on doubles. -/
  feq : F → F → Bool

/-! ## Characters -/

/-- The terminator `'\0'` of a C string. -/
def NUL : Char := Char.ofNat 0

/-- The character `*p`: the head of what remains, the terminator at the end. -/
def peek (p : List Char) : Char := p.headD NUL

/-- The character `p[i]`. -/
def at_index (p : List Char) (i : Nat) : Char := p.getD i NUL

/-- The macro `ISDIGIT(ch)`: `ch >= '0' && ch <= '9'`. -/
def ISDIGIT (ch : Char) : Bool := decide ('0' ≤ ch) && decide (ch ≤ '9')

/-- The macro `ISDIGIT1TO9(ch)`: `ch >= '1' && ch <= '9'`. -/
def ISDIGIT1TO9 (ch : Char) : Bool := decide ('1' ≤ ch) && decide (ch ≤ '9')

/-- The loop condition of `lept_parse_whitespace`:
`*p == ' ' || *p == '\t' || *p == '\n' || *p == '\r'`. -/
def is_whitespace (ch : Char) : Bool :=
  ch == ' ' || ch == '\t' || ch == '\n' || ch == '\r'

/-! ## The parser -/

/-- The macro `EXPECT(c, ch)`: `assert(*c->json == (ch)); c->json++;`. -/
def EXPECT (c : lept_context) (ch : Char) : Option lept_context :=
  if peek c.json = ch then some { json := c.json.tail } else none

/-- The function `lept_parse_whitespace`: `while (*p is whitespace) p++;`. -/
def lept_parse_whitespace (c : lept_context) : lept_context :=
  { json := c.json.dropWhile is_whitespace }

/-- The function `lept_parse_true`. -/
def lept_parse_true {F : Type} (c : lept_context) (v : lept_value F) :
    Option (ParseStatus × lept_context × lept_value F) :=
  match EXPECT c 't' with
  | none => none
  | some c =>
    if at_index c.json 0 != 'r' || at_index c.json 1 != 'u' || at_index c.json 2 != 'e' then
      some (LEPT_PARSE_INVALID_VALUE, c, v)
    else
      some (LEPT_PARSE_OK, { json := c.json.drop 3 }, { v with type := LEPT_TRUE })

/-- The function `lept_parse_false`. -/
def lept_parse_false {F : Type} (c : lept_context) (v : lept_value F) :
    Option (ParseStatus × lept_context × lept_value F) :=
  match EXPECT c 'f' with
  | none => none
  | some c =>
    if at_index c.json 0 != 'a' || at_index c.json 1 != 'l' || at_index c.json 2 != 's' ||
        at_index c.json 3 != 'e' then
      some (LEPT_PARSE_INVALID_VALUE, c, v)
    else
      some (LEPT_PARSE_OK, { json := c.json.drop 4 }, { v with type := LEPT_FALSE })

/-- The function `lept_parse_null`. -/
def lept_parse_null {F : Type} (c : lept_context) (v : lept_value F) :
    Option (ParseStatus × lept_context × lept_value F) :=
  match EXPECT c 'n' with
  | none => none
  | some c =>
    if at_index c.json 0 != 'u' || at_index c.json 1 != 'l' || at_index c.json 2 != 'l' then
      some (LEPT_PARSE_INVALID_VALUE, c, v)
    else
      some (LEPT_PARSE_OK, { json := c.json.drop 3 }, { v with type := LEPT_NULL })

/-- The value `strlen(literal) - 1` in `size_t` (64 bits): it wraps for the empty
literal. -/
def strlen_minus_one (literal : List Char) : Nat :=
  (literal.length + 2 ^ 64 - 1) % 2 ^ 64

/-- The function `lept_parse_literal`.  The `for` loop returns at the first `i`
below `strlen(literal) - 1` with `c->json[i] != literal[i + 1]`. -/
def lept_parse_literal {F : Type} (c : lept_context) (v : lept_value F)
    (literal : List Char) (type : lept_type) :
    Option (ParseStatus × lept_context × lept_value F) :=
  match EXPECT c (at_index literal 0) with
  | none => none
  | some c =>
    if (List.range (strlen_minus_one literal)).any
        (fun i => at_index c.json i != at_index literal (i + 1)) then
      some (LEPT_PARSE_INVALID_VALUE, c, v)
    else
      some (LEPT_PARSE_OK, { json := c.json.drop (strlen_minus_one literal) },
        { v with type := type })

/-- The step `// check int` of `is_json_format`: a single `'0'`, or a digit
1-9 and the digits after it; `none` is the `return LEPT_PARSE_INVALID_VALUE`. -/
def check_int (p : List Char) : Option (List Char) :=
  if peek p = '0' then some p.tail
  else if ISDIGIT1TO9 (peek p) then some (p.dropWhile ISDIGIT)
  else none

/-- The step `// check frac` of `is_json_format`. -/
def check_frac (p : List Char) : Option (List Char) :=
  if peek p = '.' then
    let p := p.tail
    if !ISDIGIT (peek p) then none
    else some (p.dropWhile ISDIGIT)
  else some p

/-- The step `// check exp` of `is_json_format`. -/
def check_exp (p : List Char) : Option (List Char) :=
  if peek p = 'e' ∨ peek p = 'E' then
    let p := p.tail
    let p := if peek p = '-' ∨ peek p = '+' then p.tail else p
    if !ISDIGIT (peek p) then none
    else some (p.dropWhile ISDIGIT)
  else some p

/-- The function `is_json_format`. -/
def is_json_format (p : List Char) : ParseStatus :=
  -- check '-'
  let p := if peek p = '-' then p.tail else p
  match check_int p with
  | none => LEPT_PARSE_INVALID_VALUE
  | some p =>
    match check_frac p with
    | none => LEPT_PARSE_INVALID_VALUE
    | some p =>
      match check_exp p with
      | none => LEPT_PARSE_INVALID_VALUE
      | some p =>
        -- reach end
        if peek p ≠ NUL then LEPT_PARSE_ROOT_NOT_SINGULAR
        else LEPT_PARSE_OK

/-- The function `lept_parse_number`. -/
def lept_parse_number {F : Type} (L : Libc F) (c : lept_context) (v : lept_value F) :
    ParseStatus × lept_context × lept_value F :=
  let ret := is_json_format c.json
  if ret ≠ LEPT_PARSE_OK then (ret, c, v)
  else
    let r := L.strtod c.json
    let v : lept_value F := { v with n := r.1 }
    if r.2 && (L.feq v.n L.HUGE_VAL || L.feq v.n (L.neg L.HUGE_VAL)) then
      (LEPT_PARSE_NUMBER_TOO_BIG, c, v)
    else
      (LEPT_PARSE_OK, { json := c.json.dropWhile (fun ch => ch != NUL) },
        { v with type := LEPT_NUMBER })

/-- The function `lept_parse_value`. -/
def lept_parse_value {F : Type} (L : Libc F) (c : lept_context) (v : lept_value F) :
    Option (ParseStatus × lept_context × lept_value F) :=
  if peek c.json = 't' then lept_parse_true c v
  else if peek c.json = 'f' then lept_parse_false c v
  else if peek c.json = 'n' then lept_parse_literal c v "null".toList LEPT_NULL
  else if peek c.json = NUL then some (LEPT_PARSE_EXPECT_VALUE, c, v)
  else some (lept_parse_number L c v)

/-- The function `lept_parse`; the argument `v` is the value `*v` on entry, the
result is the returned status and the value `*v` on return. -/
def lept_parse {F : Type} (L : Libc F) (v : lept_value F) (json : List Char) :
    Option (ParseStatus × lept_value F) :=
  let c : lept_context := { json := json }
  let v : lept_value F := { v with type := LEPT_NULL }
  let c := lept_parse_whitespace c
  match lept_parse_value L c v with
  | none => none
  | some (ret, c, v) =>
    if ret = LEPT_PARSE_OK then
      let c := lept_parse_whitespace c
      if peek c.json ≠ NUL then
        some (LEPT_PARSE_ROOT_NOT_SINGULAR, { v with type := LEPT_NULL })
      else some (ret, v)
    else some (ret, v)

/-- The function `lept_get_type`. -/
def lept_get_type {F : Type} (v : lept_value F) : lept_type := v.type

/-- The function `lept_get_number`, with its assertion `v->type == LEPT_NUMBER`. -/
def lept_get_number {F : Type} (v : lept_value F) : Option F :=
  if v.type = LEPT_NUMBER then some v.n else none

/-! ## A sample C library -/

/-- A double of the sample library: a finite decimal `± m × 10 ^ e`, kept exact
(the rounding to 53 bits is left out), or an infinity. -/
inductive SampleDouble where
  | finite (negative : Bool) (m : Nat) (e : Int)
  | infinite (negative : Bool)
  deriving DecidableEq

/-- The value of a string of decimal digits. -/
def digits_value (ds : List Char) : Nat :=
  ds.foldl (fun a ch => 10 * a + (ch.toNat - '0'.toNat)) 0

/-- The least magnitude that rounds to an infinity: `2 ^ 1024 - 2 ^ 970`, half an
ulp above the largest finite double. -/
def overflow_threshold : Nat := (2 ^ 256) ^ 4 - (2 ^ 97) ^ 10

/-- The conversion of the sample library: sign, integer digits, fraction digits
and exponent are read off the text, the value is `± m × 10 ^ e`, and a magnitude
of `overflow_threshold` or more yields an infinity and the range error. -/
def sample_strtod (s : List Char) : SampleDouble × Bool :=
  let negative : Bool := decide (peek s = '-')
  let s := if peek s = '-' then s.tail else s
  let ip := s.takeWhile ISDIGIT
  let s := s.dropWhile ISDIGIT
  let fp := if peek s = '.' then s.tail.takeWhile ISDIGIT else []
  let s := if peek s = '.' then s.tail.dropWhile ISDIGIT else s
  let ex : Int :=
    if peek s = 'e' ∨ peek s = 'E' then
      if peek s.tail = '-' then -((digits_value (s.tail.tail.takeWhile ISDIGIT) : Nat) : Int)
      else if peek s.tail = '+' then (digits_value (s.tail.tail.takeWhile ISDIGIT) : Nat)
      else (digits_value (s.tail.takeWhile ISDIGIT) : Nat)
    else 0
  let m := digits_value (ip ++ fp)
  let e : Int := ex - (fp.length : Nat)
  let big : Bool :=
    if 0 ≤ e then decide (overflow_threshold ≤ m * 10 ^ e.toNat)
    else decide (overflow_threshold * 10 ^ (-e).toNat ≤ m)
  if big then (SampleDouble.infinite negative, true)
  else (SampleDouble.finite negative m e, false)

/-- The comparison `==` of the sample library. -/
def sample_feq (x y : SampleDouble) : Bool :=
  match x, y with
  | SampleDouble.infinite a, SampleDouble.infinite b => a == b
  | SampleDouble.finite a m e, SampleDouble.finite b n k =>
    decide (m * 10 ^ (e - min e k).toNat = n * 10 ^ (k - min e k).toNat) &&
      (a == b || m == 0)
  | _, _ => false

/-- Unary minus of the sample library. -/
def sample_neg (x : SampleDouble) : SampleDouble :=
  match x with
  | SampleDouble.infinite a => SampleDouble.infinite (!a)
  | SampleDouble.finite a m e => SampleDouble.finite (!a) m e

/-- A C library to run the parser on concrete texts. -/
def sampleLibc : Libc SampleDouble where
  strtod := sample_strtod
  HUGE_VAL := SampleDouble.infinite false
  neg := sample_neg
  feq := sample_feq

/-- A value to start from: the number 7 under the tag `LEPT_TRUE`. -/
def v0 : lept_value SampleDouble :=
  { n := SampleDouble.finite false 7 0, type := LEPT_TRUE }

/-! ## Texts -/

/-- A string made only of space, tab, newline and carriage-return. -/
def IsWs (w : List Char) : Prop :=
  ∀ ch ∈ w, ch = ' ' ∨ ch = '\t' ∨ ch = '\n' ∨ ch = '\r'

/-- A C string: no character of the text is the terminator. -/
def IsCStr (s : List Char) : Prop := NUL ∉ s

/-- A digit in 0-9. -/
def Digit (ch : Char) : Prop := '0' ≤ ch ∧ ch ≤ '9'

/-- A digit in 1-9. -/
def Digit19 (ch : Char) : Prop := '1' ≤ ch ∧ ch ≤ '9'

/-- The optional leading `-` of a number. -/
def IsSign (s : List Char) : Prop := s = [] ∨ s = ['-']

/-- The integer part of a number: a single `0`, or one digit in 1-9 followed by
zero or more digits in 0-9. -/
def IsInt (s : List Char) : Prop :=
  s = ['0'] ∨ ∃ d ds, s = d :: ds ∧ Digit19 d ∧ ∀ ch ∈ ds, Digit ch

/-- The optional fractional part: a `.` followed by one or more digits. -/
def IsFrac (s : List Char) : Prop :=
  s = [] ∨ ∃ ds, s = '.' :: ds ∧ ds ≠ [] ∧ ∀ ch ∈ ds, Digit ch

/-- The optional exponent part: `e` or `E`, an optional `+` or `-`, and one or
more digits. -/
def IsExp (s : List Char) : Prop :=
  s = [] ∨ ∃ m sg ds, s = m :: (sg ++ ds) ∧ (m = 'e' ∨ m = 'E') ∧
    (sg = [] ∨ sg = ['+'] ∨ sg = ['-']) ∧ ds ≠ [] ∧ ∀ ch ∈ ds, Digit ch

/-- The number grammar of the spec,
`-?(0|[1-9][0-9]*)(.[0-9]+)?([eE][+-]?[0-9]+)?`. -/
def NumberGrammar (n : List Char) : Prop :=
  ∃ sg i f e, n = sg ++ (i ++ (f ++ e)) ∧ IsSign sg ∧ IsInt i ∧ IsFrac f ∧ IsExp e

/-- The character after a number does not continue it: it is no digit, no `.`
and no exponent marker. -/
def EndsNumber (r : List Char) : Prop :=
  ISDIGIT (peek r) = false ∧ peek r ≠ '.' ∧ peek r ≠ 'e' ∧ peek r ≠ 'E'

/-- The value that `lept_parse` returns on the number path. -/
def number_result {F : Type} (L : Libc F) (v : lept_value F) (r : List Char) :
    ParseStatus × lept_value F :=
  if is_json_format r = LEPT_PARSE_OK then
    (if (L.strtod r).2 &&
        (L.feq (L.strtod r).1 L.HUGE_VAL || L.feq (L.strtod r).1 (L.neg L.HUGE_VAL)) then
      (LEPT_PARSE_NUMBER_TOO_BIG, { n := (L.strtod r).1, type := LEPT_NULL })
    else (LEPT_PARSE_OK, { n := (L.strtod r).1, type := LEPT_NUMBER }))
  else (is_json_format r, { n := v.n, type := LEPT_NULL })

/-- The three literals: first character, remaining characters, tag. -/
def literals : List (Char × List Char × lept_type) :=
  [('t', "rue".toList, LEPT_TRUE), ('f', "alse".toList, LEPT_FALSE),
   ('n', "ull".toList, LEPT_NULL)]

/-- The value that `lept_parse` returns on a text `ch :: t` that starts with the
first character `ch` of a literal `ch :: body` of tag `tag`. -/
def literal_result {F : Type} (v : lept_value F) (body : List Char) (tag : lept_type)
    (t : List Char) : ParseStatus × lept_value F :=
  if t.take body.length = body then
    (if peek ((t.drop body.length).dropWhile is_whitespace) ≠ NUL then
      (LEPT_PARSE_ROOT_NOT_SINGULAR, { n := v.n, type := LEPT_NULL })
    else (LEPT_PARSE_OK, { n := v.n, type := tag }))
  else (LEPT_PARSE_INVALID_VALUE, { n := v.n, type := LEPT_NULL })

instance (ch : Char) : Decidable (Digit ch) := by
  unfold Digit
  infer_instance

instance (ch : Char) : Decidable (Digit19 ch) := by
  unfold Digit19
  infer_instance

instance (w : List Char) : Decidable (IsWs w) := by
  unfold IsWs
  infer_instance

instance (s : List Char) : Decidable (IsCStr s) := by
  unfold IsCStr
  infer_instance

/-- A text `x` is a value of tag `t`: one of the three literals with its tag, or
a number of the grammar with the tag of numbers. -/
def IsValueOfTag (x : List Char) (t : lept_type) : Prop :=
  (x = "true".toList ∧ t = LEPT_TRUE) ∨ (x = "false".toList ∧ t = LEPT_FALSE) ∨
  (x = "null".toList ∧ t = LEPT_NULL) ∨ (NumberGrammar x ∧ t = LEPT_NUMBER)

/-- A valid value: one of the three literals or a number of the grammar. -/
def IsValidValue (x : List Char) : Prop :=
  x = "true".toList ∨ x = "false".toList ∨ x = "null".toList ∨ NumberGrammar x

/-- One of the three literals. -/
def IsLiteral (x : List Char) : Prop :=
  x = "true".toList ∨ x = "false".toList ∨ x = "null".toList

/-- The text after one optional leading `-`. -/
def drop_minus (r : List Char) : List Char :=
  match r with
  | '-' :: u => u
  | _ => r

/-- The text after one optional `+` or `-`. -/
def drop_exp_sign (t : List Char) : List Char :=
  match t with
  | '+' :: u => u
  | '-' :: u => u
  | _ => t

/-- Case (a) of an invalid number: after one optional leading `-` the text does
not begin with a digit. -/
def NoLeadingDigit (r : List Char) : Prop := ¬ Digit (peek (drop_minus r))

instance (r : List Char) : Decidable (NoLeadingDigit r) := by
  unfold NoLeadingDigit
  infer_instance

/-- Case (b) of an invalid number: a valid integer part, then a `.` whose next
character is not a digit. -/
def DotWithoutDigit (r : List Char) : Prop :=
  ∃ sg i rest, r = sg ++ (i ++ '.' :: rest) ∧ IsSign sg ∧ IsInt i ∧ ¬ Digit (peek rest)

/-- Case (c) of an invalid number: a valid integer part, an optional valid
fraction, an exponent marker, and after the marker and its optional sign a
character that is not a digit. -/
def ExpWithoutDigit (r : List Char) : Prop :=
  ∃ sg i f m t, r = sg ++ (i ++ (f ++ m :: t)) ∧ IsSign sg ∧ IsInt i ∧ IsFrac f ∧
    (m = 'e' ∨ m = 'E') ∧ ¬ Digit (peek (drop_exp_sign t))

/-- The conversion of the text `n` overflows: the range error is raised and the
result is `HUGE_VAL` or `-HUGE_VAL`, the condition
`errno == ERANGE && (v->n == HUGE_VAL || v->n == -HUGE_VAL)` of the source. -/
def strtod_overflows {F : Type} (L : Libc F) (n : List Char) : Bool :=
  (L.strtod n).2 &&
    (L.feq (L.strtod n).1 L.HUGE_VAL || L.feq (L.strtod n).1 (L.neg L.HUGE_VAL))

/-! ## The parser over a buffer, with checked reads

The same functions once more, with the cursor as an index into the buffer that
holds the text and its terminator.  A read beyond the terminator has no value,
and neither has a run that makes one, that fails an assertion or that runs out
of `fuel` (the bound on the iterations of each loop). -/

/-- The index of the first terminator of the buffer. -/
def terminator_index (s : List Char) : Nat := (s.takeWhile (fun ch => ch != NUL)).length

/-- The read of the character at index `i`: defined up to the first terminator
and undefined beyond it. -/
def read_at (s : List Char) (i : Nat) : Option Char :=
  if i ≤ terminator_index s then some (s.getD i NUL) else none

/-- The loop `while (f(*p)) p++;`. -/
def skip_while_at (s : List Char) (f : Char → Bool) : Nat → Nat → Option Nat
  | 0, _ => none
  | fuel + 1, p =>
    match read_at s p with
    | none => none
    | some ch => if f ch then skip_while_at s f fuel (p + 1) else some p

/-- The disjunction `p[0] != e0 || p[1] != e1 || ...` and the loop of
`lept_parse_literal`: the characters from index `p` on are read and compared in
turn with the expected ones, up to the first that differs. -/
def mismatch_at (s : List Char) : Nat → List Char → Option Bool
  | _, [] => some false
  | p, e :: es =>
    match read_at s p with
    | none => none
    | some x => if x != e then some true else mismatch_at s (p + 1) es

/-- The macro `EXPECT(c, ch)` with a checked read. -/
def EXPECT_at (s : List Char) (p : Nat) (ch : Char) : Option Nat :=
  match read_at s p with
  | none => none
  | some x => if x = ch then some (p + 1) else none

/-- The function `lept_parse_whitespace` with checked reads. -/
def lept_parse_whitespace_at (s : List Char) (fuel p : Nat) : Option Nat :=
  skip_while_at s is_whitespace fuel p

/-- The function `lept_parse_true` with checked reads. -/
def lept_parse_true_at {F : Type} (s : List Char) (p : Nat) (v : lept_value F) :
    Option (ParseStatus × Nat × lept_value F) :=
  match EXPECT_at s p 't' with
  | none => none
  | some p =>
    match mismatch_at s p ['r', 'u', 'e'] with
    | none => none
    | some true => some (LEPT_PARSE_INVALID_VALUE, p, v)
    | some false => some (LEPT_PARSE_OK, p + 3, { v with type := LEPT_TRUE })

/-- The function `lept_parse_false` with checked reads. -/
def lept_parse_false_at {F : Type} (s : List Char) (p : Nat) (v : lept_value F) :
    Option (ParseStatus × Nat × lept_value F) :=
  match EXPECT_at s p 'f' with
  | none => none
  | some p =>
    match mismatch_at s p ['a', 'l', 's', 'e'] with
    | none => none
    | some true => some (LEPT_PARSE_INVALID_VALUE, p, v)
    | some false => some (LEPT_PARSE_OK, p + 4, { v with type := LEPT_FALSE })

/-- The function `lept_parse_literal` with checked reads of the text; the
characters `literal[i + 1]` for `i < strlen(literal) - 1` are the expected ones. -/
def lept_parse_literal_at {F : Type} (s : List Char) (p : Nat) (v : lept_value F)
    (literal : List Char) (type : lept_type) :
    Option (ParseStatus × Nat × lept_value F) :=
  match EXPECT_at s p (at_index literal 0) with
  | none => none
  | some p =>
    match mismatch_at s p
        ((List.range (strlen_minus_one literal)).map (fun i => at_index literal (i + 1))) with
    | none => none
    | some true => some (LEPT_PARSE_INVALID_VALUE, p, v)
    | some false =>
      some (LEPT_PARSE_OK, p + strlen_minus_one literal, { v with type := type })

/-- The step `// check int` with checked reads; the inner `none` is the
`return LEPT_PARSE_INVALID_VALUE`. -/
def check_int_at (s : List Char) (fuel p : Nat) : Option (Option Nat) :=
  match read_at s p with
  | none => none
  | some ch =>
    if ch = '0' then some (some (p + 1))
    else if ISDIGIT1TO9 ch then (skip_while_at s ISDIGIT fuel p).map some
    else some none

/-- The step `// check frac` with checked reads. -/
def check_frac_at (s : List Char) (fuel p : Nat) : Option (Option Nat) :=
  match read_at s p with
  | none => none
  | some ch =>
    if ch = '.' then
      match read_at s (p + 1) with
      | none => none
      | some d =>
        if !ISDIGIT d then some none
        else (skip_while_at s ISDIGIT fuel (p + 1)).map some
    else some (some p)

/-- The step `// check exp` with checked reads. -/
def check_exp_at (s : List Char) (fuel p : Nat) : Option (Option Nat) :=
  match read_at s p with
  | none => none
  | some ch =>
    if ch = 'e' ∨ ch = 'E' then
      match read_at s (p + 1) with
      | none => none
      | some sg =>
        let q := if sg = '-' ∨ sg = '+' then p + 2 else p + 1
        match read_at s q with
        | none => none
        | some d =>
          if !ISDIGIT d then some none
          else (skip_while_at s ISDIGIT fuel q).map some
    else some (some p)

/-- The function `is_json_format` with checked reads. -/
def is_json_format_at (s : List Char) (fuel p : Nat) : Option ParseStatus :=
  match read_at s p with
  | none => none
  | some ch =>
    let p := if ch = '-' then p + 1 else p
    match check_int_at s fuel p with
    | none => none
    | some none => some LEPT_PARSE_INVALID_VALUE
    | some (some p) =>
      match check_frac_at s fuel p with
      | none => none
      | some none => some LEPT_PARSE_INVALID_VALUE
      | some (some p) =>
        match check_exp_at s fuel p with
        | none => none
        | some none => some LEPT_PARSE_INVALID_VALUE
        | some (some p) =>
          match read_at s p with
          | none => none
          | some ch =>
            if ch ≠ NUL then some LEPT_PARSE_ROOT_NOT_SINGULAR
            else some LEPT_PARSE_OK

/-- The function `lept_parse_number` with checked reads; `strtod` is handed the C
string at the cursor. -/
def lept_parse_number_at {F : Type} (L : Libc F) (s : List Char) (fuel p : Nat)
    (v : lept_value F) : Option (ParseStatus × Nat × lept_value F) :=
  match is_json_format_at s fuel p with
  | none => none
  | some ret =>
    if ret ≠ LEPT_PARSE_OK then some (ret, p, v)
    else
      let r := L.strtod (s.drop p)
      let v : lept_value F := { v with n := r.1 }
      if r.2 && (L.feq v.n L.HUGE_VAL || L.feq v.n (L.neg L.HUGE_VAL)) then
        some (LEPT_PARSE_NUMBER_TOO_BIG, p, v)
      else
        match skip_while_at s (fun ch => ch != NUL) fuel p with
        | none => none
        | some q => some (LEPT_PARSE_OK, q, { v with type := LEPT_NUMBER })

/-- The function `lept_parse_value` with checked reads. -/
def lept_parse_value_at {F : Type} (L : Libc F) (s : List Char) (fuel p : Nat)
    (v : lept_value F) : Option (ParseStatus × Nat × lept_value F) :=
  match read_at s p with
  | none => none
  | some ch =>
    if ch = 't' then lept_parse_true_at s p v
    else if ch = 'f' then lept_parse_false_at s p v
    else if ch = 'n' then lept_parse_literal_at s p v "null".toList LEPT_NULL
    else if ch = NUL then some (LEPT_PARSE_EXPECT_VALUE, p, v)
    else lept_parse_number_at L s fuel p v

/-- The function `lept_parse` with checked reads, on the buffer that holds the
text `json` and its terminator. -/
def lept_parse_at {F : Type} (L : Libc F) (v : lept_value F) (json : List Char)
    (fuel : Nat) : Option (ParseStatus × lept_value F) :=
  let v : lept_value F := { v with type := LEPT_NULL }
  match lept_parse_whitespace_at json fuel 0 with
  | none => none
  | some p =>
    match lept_parse_value_at L json fuel p v with
    | none => none
    | some (ret, p, v) =>
      if ret = LEPT_PARSE_OK then
        match lept_parse_whitespace_at json fuel p with
        | none => none
        | some p =>
          match read_at json p with
          | none => none
          | some ch =>
            if ch ≠ NUL then
              some (LEPT_PARSE_ROOT_NOT_SINGULAR, { v with type := LEPT_NULL })
            else some (ret, v)
      else some (ret, v)

/-! ## Whitespace -/

theorem is_whitespace_iff (ch : Char) :
    is_whitespace ch = true ↔ ch = ' ' ∨ ch = '\t' ∨ ch = '\n' ∨ ch = '\r' := by
  simp [is_whitespace, or_assoc]

theorem isWs_nil : IsWs [] := by simp [IsWs]

theorem isWs_cons {ch : Char} {w : List Char} :
    IsWs (ch :: w) ↔ is_whitespace ch = true ∧ IsWs w := by
  simp [IsWs, is_whitespace_iff]

theorem isWs_append {w1 w2 : List Char} : IsWs (w1 ++ w2) ↔ IsWs w1 ∧ IsWs w2 := by
  simp only [IsWs, List.mem_append]
  constructor
  · intro h
    exact ⟨fun ch hc => h ch (Or.inl hc), fun ch hc => h ch (Or.inr hc)⟩
  · rintro ⟨h1, h2⟩ ch (hc | hc)
    · exact h1 ch hc
    · exact h2 ch hc

theorem dropWhile_ws_append {w : List Char} (hw : IsWs w) (r : List Char) :
    (w ++ r).dropWhile is_whitespace = r.dropWhile is_whitespace := by
  induction w with
  | nil => rfl
  | cons ch w ih =>
    obtain ⟨h1, h2⟩ := isWs_cons.mp hw
    simp [List.dropWhile_cons, h1, ih h2]

theorem dropWhile_ws_all {w : List Char} (hw : IsWs w) :
    w.dropWhile is_whitespace = [] := by
  simpa using dropWhile_ws_append hw []

theorem lept_parse_whitespace_append {w : List Char} (hw : IsWs w) (r : List Char) :
    lept_parse_whitespace { json := w ++ r } = lept_parse_whitespace { json := r } := by
  simp [lept_parse_whitespace, dropWhile_ws_append hw]

theorem lept_parse_ws_append {F : Type} (L : Libc F) (v : lept_value F) {w : List Char}
    (hw : IsWs w) (r : List Char) :
    lept_parse L v (w ++ r) = lept_parse L v r := by
  simp only [lept_parse, lept_parse_whitespace_append hw]

/-! ## Characters and digits -/

@[simp] theorem peek_nil : peek [] = NUL := rfl

@[simp] theorem peek_cons (ch : Char) (t : List Char) : peek (ch :: t) = ch := rfl

theorem ISDIGIT_iff (ch : Char) : ISDIGIT ch = true ↔ Digit ch := by
  simp [ISDIGIT, Digit]

theorem ISDIGIT1TO9_iff (ch : Char) : ISDIGIT1TO9 ch = true ↔ Digit19 ch := by
  simp [ISDIGIT1TO9, Digit19]

theorem digit_of_digit19 {ch : Char} (h : Digit19 ch) : Digit ch :=
  ⟨le_trans (by decide) h.1, h.2⟩

theorem digit_ne_of_lt {ch x : Char} (h : Digit ch) (hx : x < '0') : ch ≠ x := by
  rintro rfl
  exact absurd (lt_of_le_of_lt h.1 hx) (lt_irrefl _)

theorem digit_ne_of_gt {ch x : Char} (h : Digit ch) (hx : '9' < x) : ch ≠ x := by
  rintro rfl
  exact absurd (lt_of_lt_of_le hx h.2) (lt_irrefl _)

theorem peek_eq_cons {p : List Char} {ch : Char} (h : peek p = ch) (hn : ch ≠ NUL) :
    p = ch :: p.tail := by
  cases p with
  | nil => exact absurd h.symm hn
  | cons a t => simp_all

theorem dropWhile_digits_stop {r : List Char} (hr : ISDIGIT (peek r) = false) :
    r.dropWhile ISDIGIT = r := by
  cases r with
  | nil => rfl
  | cons a t => simp_all [List.dropWhile_cons]

theorem dropWhile_digits_append {ds : List Char} (hds : ∀ ch ∈ ds, Digit ch) {r : List Char}
    (hr : ISDIGIT (peek r) = false) : (ds ++ r).dropWhile ISDIGIT = r := by
  induction ds with
  | nil => simpa using dropWhile_digits_stop hr
  | cons a t ih =>
    have ha : ISDIGIT a = true := (ISDIGIT_iff a).mpr (hds a (List.mem_cons_self a t))
    have ht : ∀ ch ∈ t, Digit ch := fun ch hc => hds ch (List.mem_cons_of_mem a hc)
    simp [List.dropWhile_cons, ha, ih ht]

theorem takeWhile_digits (p : List Char) : ∀ ch ∈ p.takeWhile ISDIGIT, Digit ch :=
  fun ch hc => (ISDIGIT_iff ch).mp (List.mem_takeWhile_imp hc)

theorem peek_dropWhile_digits (p : List Char) : ISDIGIT (peek (p.dropWhile ISDIGIT)) = false := by
  induction p with
  | nil => decide
  | cons a t ih =>
    by_cases ha : ISDIGIT a = true
    · simpa [List.dropWhile_cons, ha] using ih
    · simp [List.dropWhile_cons, ha]

/-! ## The steps of `is_json_format` against the grammar -/

theorem int_peek_digit {i : List Char} (hi : IsInt i) (r : List Char) :
    Digit (peek (i ++ r)) := by
  rcases hi with rfl | ⟨d, ds, rfl, hd, -⟩
  · show Digit '0'
    exact ⟨by decide, by decide⟩
  · exact (digit_of_digit19 hd)

theorem check_int_complete {i : List Char} (hi : IsInt i) {r : List Char}
    (hr : i = ['0'] ∨ ISDIGIT (peek r) = false) : check_int (i ++ r) = some r := by
  rcases hi with rfl | ⟨d, ds, rfl, hd, hds⟩
  · simp [check_int]
  · have hr2 : ISDIGIT (peek r) = false := by
      rcases hr with h | h
      · have h0 : d = '0' := by simpa using congrArg peek h
        subst h0
        exact absurd hd.1 (by decide)
      · exact h
    by_cases h0 : d = '0'
    · subst h0
      exact absurd hd.1 (by decide)
    · have h1 : ISDIGIT1TO9 d = true := (ISDIGIT1TO9_iff d).mpr hd
      have h2 : ISDIGIT d = true := (ISDIGIT_iff d).mpr (digit_of_digit19 hd)
      simp [check_int, h0, h1, List.dropWhile_cons, h2, dropWhile_digits_append hds hr2]

theorem check_int_sound {p q : List Char} (h : check_int p = some q) :
    ∃ i, p = i ++ q ∧ IsInt i := by
  unfold check_int at h
  split at h
  · rename_i h0
    have hp := peek_eq_cons h0 (by decide)
    simp only [Option.some.injEq] at h
    exact ⟨['0'], by rw [← h]; simpa using hp, Or.inl rfl⟩
  · split at h
    · rename_i h0 h1
      have hd : Digit19 (peek p) := (ISDIGIT1TO9_iff _).mp h1
      have hn : peek p ≠ NUL := by
        intro hc
        rw [hc] at hd
        exact absurd hd.1 (by decide)
      have hp := peek_eq_cons rfl hn
      simp only [Option.some.injEq] at h
      have h2 : ISDIGIT (peek p) = true := (ISDIGIT_iff _).mpr (digit_of_digit19 hd)
      have hq : q = p.tail.dropWhile ISDIGIT := by
        rw [← h]
        conv_lhs => rw [hp]
        simp [List.dropWhile_cons, h2]
      refine ⟨peek p :: p.tail.takeWhile ISDIGIT, ?_, Or.inr ⟨_, _, rfl, hd, takeWhile_digits _⟩⟩
      rw [hq, List.cons_append, List.takeWhile_append_dropWhile]
      exact hp
    · exact absurd h (by simp)

theorem check_frac_complete {f : List Char} (hf : IsFrac f) {r : List Char}
    (hr : ISDIGIT (peek r) = false) (hdot : peek r ≠ '.') : check_frac (f ++ r) = some r := by
  rcases hf with rfl | ⟨ds, rfl, hne, hds⟩
  · simp [check_frac, hdot]
  · cases ds with
    | nil => exact absurd rfl hne
    | cons a t =>
      have ha : ISDIGIT a = true := (ISDIGIT_iff a).mpr (hds a (List.mem_cons_self a t))
      have := dropWhile_digits_append hds hr
      simp_all [check_frac]

theorem check_frac_sound {p q : List Char} (h : check_frac p = some q) :
    ∃ f, p = f ++ q ∧ IsFrac f := by
  unfold check_frac at h
  split at h
  · rename_i h0
    have hp := peek_eq_cons h0 (by decide)
    simp only at h
    split at h
    · exact absurd h (by simp)
    · rename_i h1
      simp only [Option.some.injEq] at h
      have hd : ISDIGIT (peek p.tail) = true := by simpa using h1
      have hn : peek p.tail ≠ NUL := by
        intro hc
        rw [hc] at hd
        exact absurd hd (by decide)
      have ht := peek_eq_cons rfl hn
      refine ⟨'.' :: p.tail.takeWhile ISDIGIT, ?_, Or.inr ⟨_, rfl, ?_, takeWhile_digits _⟩⟩
      · rw [← h, List.cons_append, List.takeWhile_append_dropWhile]
        exact hp
      · rw [ht]
        simp [List.takeWhile_cons, hd]
  · simp only [Option.some.injEq] at h
    exact ⟨[], by simp [h], Or.inl rfl⟩

theorem check_exp_complete {e : List Char} (he : IsExp e) {r : List Char}
    (hr : ISDIGIT (peek r) = false) (h1 : peek r ≠ 'e') (h2 : peek r ≠ 'E') :
    check_exp (e ++ r) = some r := by
  rcases he with rfl | ⟨m, sg, ds, rfl, hm, hsg, hne, hds⟩
  · simp [check_exp, h1, h2]
  · cases ds with
    | nil => exact absurd rfl hne
    | cons a t =>
      have ha : Digit a := hds a (List.mem_cons_self a t)
      have ha1 : ISDIGIT a = true := (ISDIGIT_iff a).mpr ha
      have ha2 : a ≠ '-' := digit_ne_of_lt ha (by decide)
      have ha3 : a ≠ '+' := digit_ne_of_lt ha (by decide)
      have := dropWhile_digits_append hds hr
      rcases hm with rfl | rfl <;> rcases hsg with rfl | rfl | rfl <;>
        simp_all [check_exp]

theorem check_exp_sound {p q : List Char} (h : check_exp p = some q) :
    ∃ e, p = e ++ q ∧ IsExp e := by
  unfold check_exp at h
  split at h
  · rename_i h0
    have hm : peek p ≠ NUL := by
      rcases h0 with h0 | h0 <;> rw [h0] <;> decide
    have hp := peek_eq_cons rfl hm
    dsimp only at h
    -- the text after the optional sign
    generalize hs : (if peek p.tail = '-' ∨ peek p.tail = '+' then p.tail.tail else p.tail) = s
      at h
    split at h
    · exact absurd h (by simp)
    · rename_i h1
      simp only [Option.some.injEq] at h
      have hd : ISDIGIT (peek s) = true := by simpa using h1
      have hn : peek s ≠ NUL := by
        intro hc
        rw [hc] at hd
        exact absurd hd (by decide)
      have hs2 := peek_eq_cons rfl hn
      have hsplit : ∃ sg, p.tail = sg ++ s ∧ (sg = [] ∨ sg = ['+'] ∨ sg = ['-']) := by
        split at hs
        · rename_i hsign
          have hnn : peek p.tail ≠ NUL := by
            rcases hsign with h0 | h0 <;> rw [h0] <;> decide
          have ht := peek_eq_cons rfl hnn
          rw [hs] at ht
          rcases hsign with h0 | h0
          · exact ⟨['-'], by rw [ht, h0]; rfl, Or.inr (Or.inr rfl)⟩
          · exact ⟨['+'], by rw [ht, h0]; rfl, Or.inr (Or.inl rfl)⟩
        · exact ⟨[], by simp [hs], Or.inl rfl⟩
      obtain ⟨sg, hsg, hsg2⟩ := hsplit
      refine ⟨peek p :: (sg ++ s.takeWhile ISDIGIT), ?_,
        Or.inr ⟨_, _, _, rfl, h0, hsg2, ?_, takeWhile_digits _⟩⟩
      · rw [← h, List.cons_append, List.append_assoc, List.takeWhile_append_dropWhile, ← hsg]
        exact hp
      · rw [hs2]
        simp [List.takeWhile_cons, hd]
  · simp only [Option.some.injEq] at h
    exact ⟨[], by simp [h], Or.inl rfl⟩

/-! ## `is_json_format` against the grammar -/

theorem is_json_format_cases (p : List Char) :
    is_json_format p = LEPT_PARSE_INVALID_VALUE ∨
    is_json_format p = LEPT_PARSE_ROOT_NOT_SINGULAR ∨
    is_json_format p = LEPT_PARSE_OK := by
  unfold is_json_format
  dsimp only
  split
  · exact Or.inl rfl
  · split
    · exact Or.inl rfl
    · split
      · exact Or.inl rfl
      · split
        · exact Or.inr (Or.inl rfl)
        · exact Or.inr (Or.inr rfl)

theorem frac_peek_not_digit {f : List Char} (hf : IsFrac f) {r : List Char}
    (hr : ISDIGIT (peek r) = false) : ISDIGIT (peek (f ++ r)) = false := by
  rcases hf with rfl | ⟨ds, rfl, -, -⟩
  · simpa using hr
  · rfl

theorem exp_peek_not_digit {e : List Char} (he : IsExp e) {r : List Char}
    (hr : ISDIGIT (peek r) = false) : ISDIGIT (peek (e ++ r)) = false := by
  rcases he with rfl | ⟨m, sg, ds, rfl, hm, -, -, -⟩
  · simpa using hr
  · rcases hm with rfl | rfl <;> rfl

theorem exp_peek_not_dot {e : List Char} (he : IsExp e) {r : List Char}
    (hr : peek r ≠ '.') : peek (e ++ r) ≠ '.' := by
  rcases he with rfl | ⟨m, sg, ds, rfl, hm, -, -, -⟩
  · simpa using hr
  · rcases hm with rfl | rfl <;> simp

/-- The text after the optional leading `-`, as `is_json_format` computes it. -/
theorem sign_step {sg : List Char} (hsg : IsSign sg) {t : List Char} (ht : Digit (peek t)) :
    (if peek (sg ++ t) = '-' then (sg ++ t).tail else sg ++ t) = t := by
  rcases hsg with rfl | rfl
  · have : peek t ≠ '-' := digit_ne_of_lt ht (by decide)
    simp [this]
  · simp

/-- Completeness: on a number of the grammar followed by a text that does not
continue it, `is_json_format` stops exactly after the number. -/
theorem is_json_format_complete {n : List Char} (hn : NumberGrammar n) {r : List Char}
    (hr : EndsNumber r) :
    is_json_format (n ++ r) =
      if peek r ≠ NUL then LEPT_PARSE_ROOT_NOT_SINGULAR else LEPT_PARSE_OK := by
  obtain ⟨sg, i, f, e, rfl, hsg, hi, hf, he⟩ := hn
  obtain ⟨hr1, hr2, hr3, hr4⟩ := hr
  have e1 : sg ++ (i ++ (f ++ e)) ++ r = sg ++ (i ++ (f ++ (e ++ r))) := by
    simp [List.append_assoc]
  have s1 := sign_step hsg (int_peek_digit hi (f ++ (e ++ r)))
  have s2 : check_int (i ++ (f ++ (e ++ r))) = some (f ++ (e ++ r)) :=
    check_int_complete hi (Or.inr (frac_peek_not_digit hf (exp_peek_not_digit he hr1)))
  have s3 : check_frac (f ++ (e ++ r)) = some (e ++ r) :=
    check_frac_complete hf (exp_peek_not_digit he hr1) (exp_peek_not_dot he hr2)
  have s4 : check_exp (e ++ r) = some r := check_exp_complete he hr1 hr3 hr4
  rw [e1]
  unfold is_json_format
  simp only [s1, s2, s3, s4]

/-- Soundness: when `is_json_format` does not answer `LEPT_PARSE_INVALID_VALUE` it
has read a number of the grammar, and it answers by what follows the number. -/
theorem is_json_format_sound {p : List Char}
    (h : is_json_format p ≠ LEPT_PARSE_INVALID_VALUE) :
    ∃ n r, p = n ++ r ∧ NumberGrammar n ∧
      is_json_format p =
        if peek r ≠ NUL then LEPT_PARSE_ROOT_NOT_SINGULAR else LEPT_PARSE_OK := by
  have hsign : ∃ sg, p = sg ++ (if peek p = '-' then p.tail else p) ∧ IsSign sg := by
    by_cases h0 : peek p = '-'
    · refine ⟨['-'], ?_, Or.inr rfl⟩
      simpa [h0] using peek_eq_cons h0 (by decide)
    · exact ⟨[], by simp [h0], Or.inl rfl⟩
  obtain ⟨sg, hp, hsg⟩ := hsign
  unfold is_json_format at h ⊢
  dsimp only at h ⊢
  generalize (if peek p = '-' then p.tail else p) = p1 at hp h ⊢
  cases h1 : check_int p1 with
  | none => simp [h1] at h
  | some p2 =>
    cases h2 : check_frac p2 with
    | none => simp [h1, h2] at h
    | some p3 =>
      cases h3 : check_exp p3 with
      | none => simp [h1, h2, h3] at h
      | some p4 =>
        obtain ⟨i, e1, hi⟩ := check_int_sound h1
        obtain ⟨f, e2, hf⟩ := check_frac_sound h2
        obtain ⟨e, e3, he⟩ := check_exp_sound h3
        refine ⟨sg ++ (i ++ (f ++ e)), p4, ?_, ⟨sg, i, f, e, rfl, hsg, hi, hf, he⟩, ?_⟩
        · rw [hp, e1, e2, e3]
          simp [List.append_assoc]
        · simp only [h2, h3]

theorem is_json_format_ok_iff {p : List Char} (hp : IsCStr p) :
    is_json_format p = LEPT_PARSE_OK ↔ NumberGrammar p := by
  constructor
  · intro h
    obtain ⟨n, r, e, hn, hst⟩ := is_json_format_sound (by rw [h]; decide)
    rw [h] at hst
    have hr : peek r = NUL := by
      by_contra hc
      simp [hc] at hst
    have : r = [] := by
      cases r with
      | nil => rfl
      | cons a t =>
        exfalso
        apply hp
        simp only [peek_cons] at hr
        simp [e, hr]
    simpa [e, this] using hn
  · intro h
    have := is_json_format_complete h (r := []) ⟨by decide, by decide, by decide, by decide⟩
    simpa using this

/-! ## `lept_parse` case by case -/

theorem lept_parse_nil {F : Type} (L : Libc F) (v : lept_value F) :
    lept_parse L v [] = some (LEPT_PARSE_EXPECT_VALUE, { n := v.n, type := LEPT_NULL }) := by
  simp [lept_parse, lept_parse_whitespace, lept_parse_value, peek, NUL]

theorem lept_parse_true_eq {F : Type} (L : Libc F) (v : lept_value F) (t : List Char) :
    lept_parse L v ('t' :: t) = some (
      if t.take 3 = ['r', 'u', 'e'] then
        (if peek ((t.drop 3).dropWhile is_whitespace) ≠ NUL then
          (LEPT_PARSE_ROOT_NOT_SINGULAR, { n := v.n, type := LEPT_NULL })
        else (LEPT_PARSE_OK, { n := v.n, type := LEPT_TRUE }))
      else (LEPT_PARSE_INVALID_VALUE, { n := v.n, type := LEPT_NULL })) := by
  rcases t with _ | ⟨a, _ | ⟨b, _ | ⟨c, t⟩⟩⟩ <;>
    simp [lept_parse, lept_parse_whitespace, lept_parse_value, lept_parse_true, EXPECT, peek,
      at_index, is_whitespace, NUL]
  by_cases ha : a = 'r' <;> by_cases hb : b = 'u' <;> by_cases hc : c = 'e' <;>
    simp [ha, hb, hc]
  split <;> rfl

theorem lept_parse_false_eq {F : Type} (L : Libc F) (v : lept_value F) (t : List Char) :
    lept_parse L v ('f' :: t) = some (
      if t.take 4 = ['a', 'l', 's', 'e'] then
        (if peek ((t.drop 4).dropWhile is_whitespace) ≠ NUL then
          (LEPT_PARSE_ROOT_NOT_SINGULAR, { n := v.n, type := LEPT_NULL })
        else (LEPT_PARSE_OK, { n := v.n, type := LEPT_FALSE }))
      else (LEPT_PARSE_INVALID_VALUE, { n := v.n, type := LEPT_NULL })) := by
  rcases t with _ | ⟨a, _ | ⟨b, _ | ⟨c, _ | ⟨d, t⟩⟩⟩⟩ <;>
    simp [lept_parse, lept_parse_whitespace, lept_parse_value, lept_parse_false, EXPECT, peek,
      at_index, is_whitespace, NUL]
  by_cases ha : a = 'a' <;> by_cases hb : b = 'l' <;> by_cases hc : c = 's' <;>
    by_cases hd : d = 'e' <;> simp [ha, hb, hc, hd]
  split <;> rfl

theorem lept_parse_literal_null {F : Type} (c : lept_context) (v : lept_value F) :
    lept_parse_literal c v "null".toList LEPT_NULL = lept_parse_null c v := by
  have h3 : strlen_minus_one "null".toList = 3 := by decide
  have hr : List.range 3 = [0, 1, 2] := by decide
  have h0 : at_index "null".toList 0 = 'n' := by decide
  have h1 : at_index "null".toList (0 + 1) = 'u' := by decide
  have h2 : at_index "null".toList (1 + 1) = 'l' := by decide
  have h4 : at_index "null".toList (2 + 1) = 'l' := by decide
  unfold lept_parse_literal lept_parse_null
  rw [h3, hr, h0]
  simp only [List.any_cons, List.any_nil, h1, h2, h4, Bool.or_false, Bool.or_assoc]

theorem lept_parse_null_eq {F : Type} (L : Libc F) (v : lept_value F) (t : List Char) :
    lept_parse L v ('n' :: t) = some (
      if t.take 3 = ['u', 'l', 'l'] then
        (if peek ((t.drop 3).dropWhile is_whitespace) ≠ NUL then
          (LEPT_PARSE_ROOT_NOT_SINGULAR, { n := v.n, type := LEPT_NULL })
        else (LEPT_PARSE_OK, { n := v.n, type := LEPT_NULL }))
      else (LEPT_PARSE_INVALID_VALUE, { n := v.n, type := LEPT_NULL })) := by
  simp only [lept_parse, lept_parse_value, lept_parse_literal_null]
  rcases t with _ | ⟨a, _ | ⟨b, _ | ⟨c, t⟩⟩⟩ <;>
    simp [lept_parse_whitespace, lept_parse_null, EXPECT, peek, at_index, is_whitespace, NUL]
  by_cases ha : a = 'u' <;> by_cases hb : b = 'l' <;> by_cases hc : c = 'l' <;>
    simp [ha, hb, hc]
  split <;> rfl

theorem peek_after_number (l : List Char) :
    peek ((l.dropWhile (fun ch => ch != NUL)).dropWhile is_whitespace) = NUL := by
  induction l with
  | nil => rfl
  | cons a t ih =>
    by_cases ha : a = NUL
    · subst ha
      have : is_whitespace NUL = false := by decide
      simp [List.dropWhile_cons, this]
    · simpa [List.dropWhile_cons, ha] using ih

theorem lept_parse_number_eq {F : Type} (L : Libc F) (v : lept_value F) {r : List Char}
    (ht : peek r ≠ 't') (hf : peek r ≠ 'f') (hn : peek r ≠ 'n') (h0 : peek r ≠ NUL)
    (hw : is_whitespace (peek r) = false) :
    lept_parse L v r = some (number_result L v r) := by
  have hr : r.dropWhile is_whitespace = r := by
    cases r with
    | nil => rfl
    | cons a t =>
      simp only [peek_cons] at hw
      simp [List.dropWhile_cons, hw]
  have hp := peek_after_number r
  simp only [lept_parse, lept_parse_whitespace, hr, lept_parse_value, ht, hf, hn, h0,
    if_false, lept_parse_number, number_result]
  by_cases hj : is_json_format r = LEPT_PARSE_OK
  · by_cases hb : ((L.strtod r).2 &&
        (L.feq (L.strtod r).1 L.HUGE_VAL || L.feq (L.strtod r).1 (L.neg L.HUGE_VAL))) = true
    · simp [hj, hb]
    · simp [hj, hb, hp]
  · simp [hj]

theorem lept_parse_literal_eq {F : Type} (L : Libc F) (v : lept_value F) {ch : Char}
    {body : List Char} {tag : lept_type} (hl : (ch, body, tag) ∈ literals) (t : List Char) :
    lept_parse L v (ch :: t) = some (literal_result v body tag t) := by
  simp only [literals, List.mem_cons, Prod.mk.injEq, List.mem_singleton, List.not_mem_nil,
    or_false] at hl
  rcases hl with ⟨rfl, rfl, rfl⟩ | ⟨rfl, rfl, rfl⟩ | ⟨rfl, rfl, rfl⟩
  · exact lept_parse_true_eq L v t
  · exact lept_parse_false_eq L v t
  · exact lept_parse_null_eq L v t

theorem literals_head {ch : Char} {body : List Char} {tag : lept_type}
    (hl : (ch, body, tag) ∈ literals) : ch = 't' ∨ ch = 'f' ∨ ch = 'n' := by
  simp only [literals, List.mem_cons, Prod.mk.injEq, List.mem_singleton, List.not_mem_nil,
    or_false] at hl
  rcases hl with ⟨rfl, -⟩ | ⟨rfl, -⟩ | ⟨rfl, -⟩ <;> simp

theorem peek_dropWhile_ws (s : List Char) :
    is_whitespace (peek (s.dropWhile is_whitespace)) = false := by
  induction s with
  | nil => decide
  | cons a t ih =>
    by_cases ha : is_whitespace a = true
    · simpa [List.dropWhile_cons, ha] using ih
    · simp [List.dropWhile_cons, ha]

theorem takeWhile_isWs (s : List Char) : IsWs (s.takeWhile is_whitespace) :=
  fun ch hc => (is_whitespace_iff ch).mp (List.mem_takeWhile_imp hc)

/-- The cases of `lept_parse`, by the first character after the leading
whitespace. -/
theorem lept_parse_cases {F : Type} (L : Libc F) (v : lept_value F) (s : List Char) :
    (peek (s.dropWhile is_whitespace) = NUL ∧
      lept_parse L v s = some (LEPT_PARSE_EXPECT_VALUE, { n := v.n, type := LEPT_NULL })) ∨
    (∃ ch body tag t, (ch, body, tag) ∈ literals ∧ s.dropWhile is_whitespace = ch :: t ∧
      lept_parse L v s = some (literal_result v body tag t)) ∨
    (peek (s.dropWhile is_whitespace) ≠ NUL ∧
      lept_parse L v s = some (number_result L v (s.dropWhile is_whitespace))) := by
  have hs : lept_parse L v s = lept_parse L v (s.dropWhile is_whitespace) := by
    conv_lhs => rw [← List.takeWhile_append_dropWhile is_whitespace s]
    exact lept_parse_ws_append L v (takeWhile_isWs s) _
  have hw := peek_dropWhile_ws s
  rw [hs]
  generalize s.dropWhile is_whitespace = r at hw
  by_cases h0 : peek r = NUL
  · left
    refine ⟨h0, ?_⟩
    cases r with
    | nil => exact lept_parse_nil L v
    | cons a t =>
      simp only [peek_cons] at h0
      subst h0
      simp [lept_parse, lept_parse_whitespace, lept_parse_value, peek, NUL, is_whitespace]
  · right
    by_cases ht : peek r = 't'
    · left
      have hr := peek_eq_cons ht (by decide)
      have hm : ('t', "rue".toList, LEPT_TRUE) ∈ literals := by simp [literals]
      refine ⟨'t', "rue".toList, LEPT_TRUE, r.tail, hm, hr, ?_⟩
      conv_lhs => rw [hr]
      exact lept_parse_literal_eq L v hm _
    by_cases hf : peek r = 'f'
    · left
      have hr := peek_eq_cons hf (by decide)
      have hm : ('f', "alse".toList, LEPT_FALSE) ∈ literals := by simp [literals]
      refine ⟨'f', "alse".toList, LEPT_FALSE, r.tail, hm, hr, ?_⟩
      conv_lhs => rw [hr]
      exact lept_parse_literal_eq L v hm _
    by_cases hn : peek r = 'n'
    · left
      have hr := peek_eq_cons hn (by decide)
      have hm : ('n', "ull".toList, LEPT_NULL) ∈ literals := by simp [literals]
      refine ⟨'n', "ull".toList, LEPT_NULL, r.tail, hm, hr, ?_⟩
      conv_lhs => rw [hr]
      exact lept_parse_literal_eq L v hm _
    · right
      exact ⟨h0, lept_parse_number_eq L v ht hf hn h0 hw⟩

/-! ## C strings -/

theorem cstr_of_subset {s r : List Char} (hs : IsCStr s) (h : ∀ ch ∈ r, ch ∈ s) :
    IsCStr r :=
  fun hc => hs (h NUL hc)

theorem cstr_peek_nul {r : List Char} (hr : IsCStr r) (h : peek r = NUL) : r = [] := by
  cases r with
  | nil => rfl
  | cons a t =>
    simp only [peek_cons] at h
    exact absurd (by simp [h]) hr

theorem cstr_dropWhile {s : List Char} (hs : IsCStr s) (f : Char → Bool) :
    IsCStr (s.dropWhile f) :=
  cstr_of_subset hs fun _ hc => (List.dropWhile_sublist f).subset hc

theorem cstr_drop {s : List Char} (hs : IsCStr s) (k : Nat) : IsCStr (s.drop k) :=
  cstr_of_subset hs fun _ hc => List.mem_of_mem_drop hc

theorem cstr_tail {a : Char} {t : List Char} (hs : IsCStr (a :: t)) : IsCStr t :=
  cstr_of_subset hs fun _ hc => List.mem_cons_of_mem a hc

theorem cstr_isWs_of_peek {l : List Char} (hl : IsCStr l)
    (h : peek (l.dropWhile is_whitespace) = NUL) : IsWs l := by
  have h2 := cstr_peek_nul (cstr_dropWhile hl is_whitespace) h
  rw [List.dropWhile_eq_nil_iff] at h2
  exact fun ch hc => (is_whitespace_iff ch).mp (h2 ch hc)

theorem number_result_status {F : Type} (L : Libc F) (v : lept_value F) (r : List Char) :
    (number_result L v r).1 ≠ LEPT_PARSE_EXPECT_VALUE := by
  unfold number_result
  split
  · split <;> simp
  · rcases is_json_format_cases r with h | h | h <;> simp [h]

/-! ## First characters -/

theorem digit_not_special {ch : Char} (h : Digit ch) :
    ch ≠ 't' ∧ ch ≠ 'f' ∧ ch ≠ 'n' ∧ ch ≠ NUL ∧ is_whitespace ch = false ∧
      ch ≠ '.' ∧ ch ≠ 'e' ∧ ch ≠ 'E' ∧ ch ≠ '-' ∧ ch ≠ '+' := by
  refine ⟨digit_ne_of_gt h (by decide), digit_ne_of_gt h (by decide),
    digit_ne_of_gt h (by decide), digit_ne_of_lt h (by decide), ?_,
    digit_ne_of_lt h (by decide), digit_ne_of_gt h (by decide), digit_ne_of_gt h (by decide),
    digit_ne_of_lt h (by decide), digit_ne_of_lt h (by decide)⟩
  cases hw : is_whitespace ch with
  | false => rfl
  | true =>
    rcases (is_whitespace_iff ch).mp hw with rfl | rfl | rfl | rfl <;>
      exact absurd h.1 (by decide)

theorem number_grammar_peek {n : List Char} (hn : NumberGrammar n) (r : List Char) :
    peek (n ++ r) = '-' ∨ Digit (peek (n ++ r)) := by
  obtain ⟨sg, i, f, e, rfl, hsg, hi, -, -⟩ := hn
  rcases hsg with rfl | rfl
  · right
    simpa [List.append_assoc] using int_peek_digit hi (f ++ e ++ r)
  · left
    rfl

theorem number_start {r : List Char} (h : peek r = '-' ∨ Digit (peek r)) :
    peek r ≠ 't' ∧ peek r ≠ 'f' ∧ peek r ≠ 'n' ∧ peek r ≠ NUL ∧
      is_whitespace (peek r) = false := by
  rcases h with h | h
  · rw [h]
    decide
  · obtain ⟨h1, h2, h3, h4, h5, -⟩ := digit_not_special h
    exact ⟨h1, h2, h3, h4, h5⟩

theorem number_grammar_nil : ¬ NumberGrammar [] := by
  rintro ⟨sg, i, f, e, h, -, hi, -, -⟩
  have h2 : i = [] := by
    have := congrArg List.length h
    simp only [List.length_nil, List.length_append] at this
    exact List.length_eq_zero.mp (by omega)
  subst h2
  rcases hi with h | ⟨d, ds, h, -⟩ <;> simp at h

/-! ## Numbers that `is_json_format` rejects -/

theorem sign_step_eq (r : List Char) :
    (if peek r = '-' then r.tail else r) = drop_minus r := by
  cases r with
  | nil => simp [drop_minus, NUL]
  | cons a t =>
    by_cases ha : a = '-'
    · subst ha
      simp [drop_minus]
    · simp only [peek_cons, ha, if_false]
      unfold drop_minus
      split
      · rename_i h
        exact absurd (List.cons.inj h).1 ha
      · rfl

theorem exp_sign_step_eq (t : List Char) :
    (if peek t = '-' ∨ peek t = '+' then t.tail else t) = drop_exp_sign t := by
  cases t with
  | nil => simp [drop_exp_sign, NUL]
  | cons a u =>
    by_cases h1 : a = '-'
    · subst h1
      simp [drop_exp_sign]
    · by_cases h2 : a = '+'
      · subst h2
        simp [drop_exp_sign]
      · simp only [peek_cons, h1, h2, or_self, if_false]
        unfold drop_exp_sign
        split
        · rename_i h
          exact absurd (List.cons.inj h).1 h2
        · rename_i h
          exact absurd (List.cons.inj h).1 h1
        · rfl

theorem check_int_none {p : List Char} (h : ¬ Digit (peek p)) : check_int p = none := by
  have h0 : peek p ≠ '0' := by
    intro hc
    rw [hc] at h
    exact h (by decide)
  have h1 : ISDIGIT1TO9 (peek p) ≠ true := fun hc =>
    h (digit_of_digit19 ((ISDIGIT1TO9_iff _).mp hc))
  simp [check_int, h0, h1]

theorem not_digit_iff (ch : Char) : ISDIGIT ch = false ↔ ¬ Digit ch := by
  rw [← ISDIGIT_iff]
  simp

theorem is_json_format_no_leading_digit {r : List Char} (h : NoLeadingDigit r) :
    is_json_format r = LEPT_PARSE_INVALID_VALUE := by
  unfold is_json_format
  simp only [sign_step_eq, check_int_none h]

theorem is_json_format_dot_without_digit {r : List Char} (h : DotWithoutDigit r) :
    is_json_format r = LEPT_PARSE_INVALID_VALUE := by
  obtain ⟨sg, i, rest, rfl, hsg, hi, hd⟩ := h
  have s1 := sign_step hsg (int_peek_digit hi ('.' :: rest))
  have s2 : check_int (i ++ '.' :: rest) = some ('.' :: rest) :=
    check_int_complete hi (Or.inr rfl)
  have s3 : check_frac ('.' :: rest) = none := by
    simp [check_frac, (not_digit_iff _).mpr hd]
  unfold is_json_format
  simp only [s1, s2, s3]

theorem is_json_format_exp_without_digit {r : List Char} (h : ExpWithoutDigit r) :
    is_json_format r = LEPT_PARSE_INVALID_VALUE := by
  obtain ⟨sg, i, f, m, t, rfl, hsg, hi, hf, hm, hd⟩ := h
  have hm1 : ISDIGIT (peek (m :: t)) = false := by
    rcases hm with rfl | rfl <;> rfl
  have hm2 : peek (m :: t) ≠ '.' := by
    rcases hm with rfl | rfl <;> simp
  have s1 := sign_step hsg (int_peek_digit hi (f ++ m :: t))
  have s2 : check_int (i ++ (f ++ m :: t)) = some (f ++ m :: t) :=
    check_int_complete hi (Or.inr (frac_peek_not_digit hf hm1))
  have s3 : check_frac (f ++ m :: t) = some (m :: t) := check_frac_complete hf hm1 hm2
  have s4 : check_exp (m :: t) = none := by
    have hm3 : peek (m :: t) = 'e' ∨ peek (m :: t) = 'E' := hm
    unfold check_exp
    simp only [hm3, if_true, List.tail_cons, exp_sign_step_eq, (not_digit_iff _).mpr hd,
      Bool.not_false]
  unfold is_json_format
  simp only [s1, s2, s3, s4]

theorem is_json_format_leading_zero {sg : List Char} (hsg : IsSign sg) {d : Char}
    (hd : Digit d) (rest : List Char) :
    is_json_format (sg ++ '0' :: d :: rest) = LEPT_PARSE_ROOT_NOT_SINGULAR := by
  obtain ⟨-, -, -, h0, -, h1, h2, h3, -, -⟩ := digit_not_special hd
  have hz0 : Digit '0' := by decide
  have hz : Digit (peek ('0' :: d :: rest)) := hz0
  have s1 := sign_step hsg hz
  have s2 : check_int ('0' :: d :: rest) = some (d :: rest) := by simp [check_int]
  have s3 : check_frac (d :: rest) = some (d :: rest) := by simp [check_frac, h1]
  have s4 : check_exp (d :: rest) = some (d :: rest) := by simp [check_exp, h2, h3]
  unfold is_json_format
  simp only [s1, s2, s3, s4, peek_cons, ne_eq, h0, not_false_eq_true, if_true]

/-! ## Trailing text after a literal -/

theorem lept_parse_literal_trailing {F : Type} (L : Libc F) (v : lept_value F)
    {lit w1 w2 : List Char} (hl : IsLiteral lit) (h1 : IsWs w1) (h2 : IsWs w2) {ch : Char}
    (hch : is_whitespace ch = false) (h0 : ch ≠ NUL) (rest : List Char) :
    lept_parse L v (w1 ++ lit ++ w2 ++ ch :: rest)
      = some (LEPT_PARSE_ROOT_NOT_SINGULAR, { n := v.n, type := LEPT_NULL }) := by
  have hd : (w2 ++ ch :: rest).dropWhile is_whitespace = ch :: rest := by
    rw [dropWhile_ws_append h2]
    simp [List.dropWhile_cons, hch]
  rw [List.append_assoc, List.append_assoc, lept_parse_ws_append L v h1]
  rcases hl with rfl | rfl | rfl
  · show lept_parse L v ('t' :: (['r', 'u', 'e'] ++ (w2 ++ ch :: rest))) = _
    rw [lept_parse_true_eq]
    simp [hd, h0]
  · show lept_parse L v ('f' :: (['a', 'l', 's', 'e'] ++ (w2 ++ ch :: rest))) = _
    rw [lept_parse_false_eq]
    simp [hd, h0]
  · show lept_parse L v ('n' :: (['u', 'l', 'l'] ++ (w2 ++ ch :: rest))) = _
    rw [lept_parse_null_eq]
    simp [hd, h0]

/-! ## The sample C library at work -/

theorem overflow_threshold_eq : overflow_threshold = 2 ^ 1024 - 2 ^ 970 := by
  decide!

theorem sample_parse_zero :
    lept_parse sampleLibc v0 "0".toList
      = some (LEPT_PARSE_OK, { n := SampleDouble.finite false 0 0, type := LEPT_NUMBER }) := by
  decide

theorem sample_parse_pi :
    lept_parse sampleLibc v0 "3.1416".toList
      = some (LEPT_PARSE_OK,
          { n := SampleDouble.finite false 31416 (-4), type := LEPT_NUMBER }) := by
  decide

theorem sample_parse_1e309 :
    lept_parse sampleLibc v0 "1e309".toList
      = some (LEPT_PARSE_NUMBER_TOO_BIG,
          { n := SampleDouble.infinite false, type := LEPT_NULL }) := by
  decide!

theorem sample_parse_minus_1e309 :
    lept_parse sampleLibc v0 "-1e309".toList
      = some (LEPT_PARSE_NUMBER_TOO_BIG,
          { n := SampleDouble.infinite true, type := LEPT_NULL }) := by
  decide!

theorem sample_parse_largest :
    lept_parse sampleLibc v0 "1.7976931348623157e308".toList
      = some (LEPT_PARSE_OK,
          { n := SampleDouble.finite false 17976931348623157 292, type := LEPT_NUMBER }) := by
  decide!

theorem sample_parse_tiny :
    lept_parse sampleLibc v0 "1e-400".toList
      = some (LEPT_PARSE_OK,
          { n := SampleDouble.finite false 1 (-400), type := LEPT_NUMBER }) := by
  decide!

/-! ## The claims -/

/-- C1: for each of the literals true, false and null, and for all strings w1 and
w2 made only of space, tab, newline and carriage-return, `lept_parse` on
w1 ++ literal ++ w2 returns `LEPT_PARSE_OK` and leaves the tag `LEPT_TRUE`,
`LEPT_FALSE`, `LEPT_NULL` respectively (the payload is untouched). -/
theorem lept_parse_literals_ok {F : Type} (L : Libc F) (v : lept_value F) (w1 w2 : List Char)
    (h1 : IsWs w1) (h2 : IsWs w2) :
    lept_parse L v (w1 ++ "true".toList ++ w2)
      = some (LEPT_PARSE_OK, { n := v.n, type := LEPT_TRUE }) ∧
    lept_parse L v (w1 ++ "false".toList ++ w2)
      = some (LEPT_PARSE_OK, { n := v.n, type := LEPT_FALSE }) ∧
    lept_parse L v (w1 ++ "null".toList ++ w2)
      = some (LEPT_PARSE_OK, { n := v.n, type := LEPT_NULL }) := by
  have hd := dropWhile_ws_all h2
  refine ⟨?_, ?_, ?_⟩
  · rw [List.append_assoc, lept_parse_ws_append L v h1]
    show lept_parse L v ('t' :: (['r', 'u', 'e'] ++ w2)) = _
    rw [lept_parse_true_eq]
    simp [hd]
  · rw [List.append_assoc, lept_parse_ws_append L v h1]
    show lept_parse L v ('f' :: (['a', 'l', 's', 'e'] ++ w2)) = _
    rw [lept_parse_false_eq]
    simp [hd]
  · rw [List.append_assoc, lept_parse_ws_append L v h1]
    show lept_parse L v ('n' :: (['u', 'l', 'l'] ++ w2)) = _
    rw [lept_parse_null_eq]
    simp [hd]

theorem lept_parse_literals_ok_witness :
    lept_parse sampleLibc v0 ([' ', '\t'] ++ "true".toList ++ ['\n', '\r', ' '])
      = some (LEPT_PARSE_OK, { n := v0.n, type := LEPT_TRUE }) ∧
    lept_parse sampleLibc v0 ([' ', '\t'] ++ "false".toList ++ ['\n', '\r', ' '])
      = some (LEPT_PARSE_OK, { n := v0.n, type := LEPT_FALSE }) ∧
    lept_parse sampleLibc v0 ([' ', '\t'] ++ "null".toList ++ ['\n', '\r', ' '])
      = some (LEPT_PARSE_OK, { n := v0.n, type := LEPT_NULL }) :=
  lept_parse_literals_ok sampleLibc v0 [' ', '\t'] ['\n', '\r', ' '] (by decide) (by decide)

/-- C2: soundness of Ok.  If `lept_parse` returns `LEPT_PARSE_OK` on a text, the
text is w1 ++ x ++ w2 with w1 and w2 made only of whitespace and x exactly true,
false, null or a number of the grammar, and the tag on return is the tag of x. -/
theorem lept_parse_ok_sound {F : Type} (L : Libc F) (v v1 : lept_value F) (s : List Char)
    (hs : IsCStr s) (h : lept_parse L v s = some (LEPT_PARSE_OK, v1)) :
    ∃ w1 x w2, s = w1 ++ x ++ w2 ∧ IsWs w1 ∧ IsWs w2 ∧ IsValueOfTag x v1.type := by
  have hsplit := (List.takeWhile_append_dropWhile is_whitespace s).symm
  have hw1 := takeWhile_isWs s
  have hr : IsCStr (s.dropWhile is_whitespace) := cstr_dropWhile hs _
  rcases lept_parse_cases L v s with ⟨-, h1⟩ | ⟨ch, body, tag, t, hl, ht, h1⟩ | ⟨-, h1⟩
  · rw [h1] at h
    simp at h
  · rw [h1] at h
    rw [ht] at hsplit hr
    simp only [literal_result, Option.some.injEq] at h
    split at h
    · rename_i hb
      split at h
      · simp at h
      · rename_i hp
        have hp2 : peek ((t.drop body.length).dropWhile is_whitespace) = NUL := by
          simpa using hp
        have hw2 : IsWs (t.drop body.length) := cstr_isWs_of_peek (cstr_drop (cstr_tail hr) _) hp2
        have htv : v1.type = tag := by
          have := congrArg (fun r => r.2.type) h
          simpa using this.symm
        have e : t = body ++ t.drop body.length := by
          conv_lhs => rw [← List.take_append_drop body.length t, hb]
        refine ⟨_, ch :: body, t.drop body.length, ?_, hw1, hw2, ?_⟩
        · rw [List.append_assoc, List.cons_append, ← e]
          exact hsplit
        · rw [htv]
          simp only [literals, List.mem_cons, Prod.mk.injEq, List.mem_singleton,
            List.not_mem_nil, or_false] at hl
          rcases hl with ⟨rfl, rfl, rfl⟩ | ⟨rfl, rfl, rfl⟩ | ⟨rfl, rfl, rfl⟩
          · exact Or.inl ⟨rfl, rfl⟩
          · exact Or.inr (Or.inl ⟨rfl, rfl⟩)
          · exact Or.inr (Or.inr (Or.inl ⟨rfl, rfl⟩))
    · simp at h
  · rw [h1] at h
    simp only [number_result, Option.some.injEq] at h
    split at h
    · rename_i hj
      split at h
      · simp at h
      · have htv : v1.type = LEPT_NUMBER := by
          have := congrArg (fun r => r.2.type) h
          simpa using this.symm
        refine ⟨_, s.dropWhile is_whitespace, [], ?_, hw1, isWs_nil, ?_⟩
        · simp
        · exact Or.inr (Or.inr (Or.inr ⟨(is_json_format_ok_iff hr).mp hj, htv⟩))
    · rename_i hj
      have := congrArg (fun r => r.1) h
      exact absurd this hj

theorem lept_parse_ok_sound_witness :
    (IsCStr " -1.5e3".toList ∧
      lept_parse sampleLibc v0 " -1.5e3".toList
        = some (LEPT_PARSE_OK,
            { n := SampleDouble.finite true 15 2, type := LEPT_NUMBER })) ∧
    ∃ w1 x w2, " -1.5e3".toList = w1 ++ x ++ w2 ∧ IsWs w1 ∧ IsWs w2 ∧
      IsValueOfTag x LEPT_NUMBER :=
  ⟨⟨by decide, by decide⟩,
    lept_parse_ok_sound sampleLibc v0
      { n := SampleDouble.finite true 15 2, type := LEPT_NUMBER } " -1.5e3".toList
      (by decide) (by decide)⟩

/-- C3: on every text, `lept_parse` returns `LEPT_PARSE_EXPECT_VALUE` if and only
if the text is empty or made only of space, tab, newline and carriage-return. -/
theorem lept_parse_expect_value_iff {F : Type} (L : Libc F) (v : lept_value F)
    (s : List Char) (hs : IsCStr s) :
    (∃ v1, lept_parse L v s = some (LEPT_PARSE_EXPECT_VALUE, v1)) ↔ IsWs s := by
  constructor
  · rintro ⟨v1, h⟩
    rcases lept_parse_cases L v s with ⟨h0, -⟩ | ⟨ch, body, tag, t, hl, ht, h1⟩ | ⟨-, h1⟩
    · exact cstr_isWs_of_peek hs h0
    · rw [h1] at h
      have := congrArg (fun r => r.1) (Option.some.inj h)
      simp only [literal_result] at this
      split at this
      · split at this <;> simp at this
      · simp at this
    · rw [h1] at h
      have := congrArg (fun r => r.1) (Option.some.inj h)
      exact absurd this (number_result_status L v _)
  · intro hw
    refine ⟨{ n := v.n, type := LEPT_NULL }, ?_⟩
    have := lept_parse_ws_append L v hw []
    rw [List.append_nil] at this
    rw [this]
    exact lept_parse_nil L v

theorem lept_parse_expect_value_iff_witness :
    IsCStr [' ', '\t', '\n'] ∧
    ((∃ v1, lept_parse sampleLibc v0 [' ', '\t', '\n'] = some (LEPT_PARSE_EXPECT_VALUE, v1)) ↔
      IsWs [' ', '\t', '\n']) :=
  ⟨by decide, lept_parse_expect_value_iff sampleLibc v0 [' ', '\t', '\n'] (by decide)⟩

/-- C4: on every text and for every prior content of the value, if `lept_parse`
returns a status other than `LEPT_PARSE_OK` then the tag of the value on return
is `LEPT_NULL`. -/
theorem lept_parse_failure_tag {F : Type} (L : Libc F) (v v1 : lept_value F) (s : List Char)
    (st : ParseStatus) (h : lept_parse L v s = some (st, v1)) (hst : st ≠ LEPT_PARSE_OK) :
    v1.type = LEPT_NULL := by
  rcases lept_parse_cases L v s with ⟨-, h1⟩ | ⟨ch, body, tag, t, hl, ht, h1⟩ | ⟨-, h1⟩
  · rw [h1] at h
    simp only [Option.some.injEq, Prod.mk.injEq] at h
    rw [← h.2]
  · rw [h1] at h
    simp only [literal_result, Option.some.injEq] at h
    split at h
    · split at h
      · simp only [Prod.mk.injEq] at h
        rw [← h.2]
      · simp only [Prod.mk.injEq] at h
        exact absurd h.1.symm hst
    · simp only [Prod.mk.injEq] at h
      rw [← h.2]
  · rw [h1] at h
    simp only [number_result, Option.some.injEq] at h
    split at h
    · split at h
      · simp only [Prod.mk.injEq] at h
        rw [← h.2]
      · simp only [Prod.mk.injEq] at h
        exact absurd h.1.symm hst
    · simp only [Prod.mk.injEq] at h
      rw [← h.2]

theorem lept_parse_failure_tag_witness :
    (lept_parse sampleLibc v0 "nul".toList
        = some (LEPT_PARSE_INVALID_VALUE, { n := v0.n, type := LEPT_NULL }) ∧
      LEPT_PARSE_INVALID_VALUE ≠ LEPT_PARSE_OK) ∧
    (lept_value.mk v0.n LEPT_NULL).type = LEPT_NULL :=
  ⟨⟨by decide, by decide⟩,
    lept_parse_failure_tag sampleLibc v0 { n := v0.n, type := LEPT_NULL } "nul".toList
      LEPT_PARSE_INVALID_VALUE (by decide) (by decide)⟩

/-- C5: completeness for numbers.  For every string n of the number grammar and
every leading whitespace string w, `is_json_format` accepts n, and `lept_parse`
on w ++ n returns either `LEPT_PARSE_OK` with tag `LEPT_NUMBER` and the payload
`strtod` converts n to, or `LEPT_PARSE_NUMBER_TOO_BIG`; hence never InvalidValue,
ExpectValue or RootNotSingular. -/
theorem lept_parse_number_complete {F : Type} (L : Libc F) (v : lept_value F)
    (w n : List Char) (hw : IsWs w) (hn : NumberGrammar n) :
    is_json_format n = LEPT_PARSE_OK ∧
    (lept_parse L v (w ++ n)
        = some (LEPT_PARSE_OK, { n := (L.strtod n).1, type := LEPT_NUMBER }) ∨
      lept_parse L v (w ++ n)
        = some (LEPT_PARSE_NUMBER_TOO_BIG, { n := (L.strtod n).1, type := LEPT_NULL })) := by
  have hj : is_json_format n = LEPT_PARSE_OK := by
    have := is_json_format_complete hn (r := []) ⟨by decide, by decide, by decide, by decide⟩
    simpa using this
  refine ⟨hj, ?_⟩
  have hp := number_grammar_peek hn []
  rw [List.append_nil] at hp
  obtain ⟨h1, h2, h3, h4, h5⟩ := number_start hp
  rw [lept_parse_ws_append L v hw, lept_parse_number_eq L v h1 h2 h3 h4 h5]
  simp only [number_result, hj, if_true]
  split
  · exact Or.inr rfl
  · exact Or.inl rfl

theorem lept_parse_number_complete_witness :
    is_json_format "-12.50e+3".toList = LEPT_PARSE_OK ∧
    (lept_parse sampleLibc v0 ([' ', '\n'] ++ "-12.50e+3".toList)
        = some (LEPT_PARSE_OK,
            { n := (sampleLibc.strtod "-12.50e+3".toList).1, type := LEPT_NUMBER }) ∨
      lept_parse sampleLibc v0 ([' ', '\n'] ++ "-12.50e+3".toList)
        = some (LEPT_PARSE_NUMBER_TOO_BIG,
            { n := (sampleLibc.strtod "-12.50e+3".toList).1, type := LEPT_NULL })) :=
  lept_parse_number_complete sampleLibc v0 [' ', '\n'] "-12.50e+3".toList (by decide)
    ⟨['-'], ['1', '2'], ['.', '5', '0'], ['e', '+', '3'], rfl, Or.inr rfl,
      Or.inr ⟨'1', ['2'], rfl, by decide, by decide⟩,
      Or.inr ⟨['5', '0'], rfl, by decide, by decide⟩,
      Or.inr ⟨'e', ['+'], ['3'], rfl, Or.inl rfl, Or.inr (Or.inl rfl), by decide, by decide⟩⟩

/-- C6, as stated, fails: on the text 0123 `lept_parse` returns
`LEPT_PARSE_ROOT_NOT_SINGULAR`, not `LEPT_PARSE_INVALID_VALUE`. -/
theorem lept_parse_0123_not_invalid :
    lept_parse sampleLibc v0 "0123".toList
      = some (LEPT_PARSE_ROOT_NOT_SINGULAR, { n := v0.n, type := LEPT_NULL }) ∧
    ¬ ∃ v1, lept_parse sampleLibc v0 "0123".toList = some (LEPT_PARSE_INVALID_VALUE, v1) := by
  have h : lept_parse sampleLibc v0 "0123".toList
      = some (LEPT_PARSE_ROOT_NOT_SINGULAR, { n := v0.n, type := LEPT_NULL }) := by decide
  refine ⟨h, ?_⟩
  rintro ⟨v1, h1⟩
  rw [h] at h1
  simp at h1

/-- C6, amended: for every text that is, after leading whitespace, an optional
`-`, then `0`, then a digit 0-9, then anything, `lept_parse` returns
`LEPT_PARSE_ROOT_NOT_SINGULAR` with tag `LEPT_NULL`: the single `0` is read as the
integer part and the digit after it is trailing text. -/
theorem lept_parse_leading_zero {F : Type} (L : Libc F) (v : lept_value F)
    (w sg rest : List Char) (d : Char) (hw : IsWs w) (hsg : IsSign sg) (hd : Digit d) :
    lept_parse L v (w ++ sg ++ '0' :: d :: rest)
      = some (LEPT_PARSE_ROOT_NOT_SINGULAR, { n := v.n, type := LEPT_NULL }) := by
  have hj := is_json_format_leading_zero hsg hd rest
  have hp : peek (sg ++ '0' :: d :: rest) = '-' ∨ Digit (peek (sg ++ '0' :: d :: rest)) := by
    rcases hsg with rfl | rfl
    · right
      show Digit '0'
      decide
    · left
      rfl
  obtain ⟨h1, h2, h3, h4, h5⟩ := number_start hp
  rw [List.append_assoc, lept_parse_ws_append L v hw, lept_parse_number_eq L v h1 h2 h3 h4 h5]
  simp [number_result, hj]

theorem lept_parse_leading_zero_witness :
    lept_parse sampleLibc v0 ([' '] ++ ['-'] ++ '0' :: '1' :: ['2', '3'])
      = some (LEPT_PARSE_ROOT_NOT_SINGULAR, { n := v0.n, type := LEPT_NULL }) :=
  lept_parse_leading_zero sampleLibc v0 [' '] ['-'] ['2', '3'] '1' (by decide)
    (Or.inr rfl) (by decide)

/-- C7, as stated, fails: on the text truee `lept_parse` returns
`LEPT_PARSE_ROOT_NOT_SINGULAR`, not `LEPT_PARSE_INVALID_VALUE`. -/
theorem lept_parse_truee_not_invalid :
    lept_parse sampleLibc v0 "truee".toList
      = some (LEPT_PARSE_ROOT_NOT_SINGULAR, { n := v0.n, type := LEPT_NULL }) ∧
    ¬ ∃ v1, lept_parse sampleLibc v0 "truee".toList = some (LEPT_PARSE_INVALID_VALUE, v1) := by
  have h : lept_parse sampleLibc v0 "truee".toList
      = some (LEPT_PARSE_ROOT_NOT_SINGULAR, { n := v0.n, type := LEPT_NULL }) := by decide
  refine ⟨h, ?_⟩
  rintro ⟨v1, h1⟩
  rw [h] at h1
  simp at h1

/-- C7, amended: for every literal among true, false and null and every
non-empty string x whose first character is not space, tab, newline or
carriage-return, `lept_parse` on literal ++ x returns
`LEPT_PARSE_ROOT_NOT_SINGULAR` with tag `LEPT_NULL`: the literal is matched on its
own characters only and x is trailing text. -/
theorem lept_parse_literal_then_text {F : Type} (L : Libc F) (v : lept_value F)
    (lit : List Char) (ch : Char) (rest : List Char) (hl : IsLiteral lit)
    (hch : is_whitespace ch = false) (h0 : ch ≠ NUL) :
    lept_parse L v (lit ++ ch :: rest)
      = some (LEPT_PARSE_ROOT_NOT_SINGULAR, { n := v.n, type := LEPT_NULL }) := by
  have := lept_parse_literal_trailing L v hl isWs_nil isWs_nil hch h0 rest
  simpa using this

theorem lept_parse_literal_then_text_witness :
    lept_parse sampleLibc v0 ("true".toList ++ 'e' :: [])
      = some (LEPT_PARSE_ROOT_NOT_SINGULAR, { n := v0.n, type := LEPT_NULL }) :=
  lept_parse_literal_then_text sampleLibc v0 "true".toList 'e' [] (Or.inl rfl)
    (by decide) (by decide)

/-- C8: let r be the text after the leading whitespace, not empty and not
starting with t, f or n.  `lept_parse` returns `LEPT_PARSE_INVALID_VALUE` (with tag
`LEPT_NULL`) when (a) r, after one optional leading `-`, does not begin with a
digit, or (b) r is a valid integer part followed by a `.` whose next character is
not a digit, or (c) r is a valid integer part, an optional valid fraction, an
exponent marker, and after the marker and its optional sign a character that is
not a digit. -/
theorem lept_parse_invalid_number {F : Type} (L : Libc F) (v : lept_value F)
    (w r : List Char) (hw : IsWs w) (h0 : peek r ≠ NUL)
    (hws : is_whitespace (peek r) = false)
    (ht : peek r ≠ 't') (hf : peek r ≠ 'f') (hn : peek r ≠ 'n')
    (h : NoLeadingDigit r ∨ DotWithoutDigit r ∨ ExpWithoutDigit r) :
    lept_parse L v (w ++ r)
      = some (LEPT_PARSE_INVALID_VALUE, { n := v.n, type := LEPT_NULL }) := by
  have hj : is_json_format r = LEPT_PARSE_INVALID_VALUE := by
    rcases h with h | h | h
    · exact is_json_format_no_leading_digit h
    · exact is_json_format_dot_without_digit h
    · exact is_json_format_exp_without_digit h
  rw [lept_parse_ws_append L v hw, lept_parse_number_eq L v ht hf hn h0 hws]
  simp [number_result, hj]

theorem lept_parse_invalid_number_witness :
    lept_parse sampleLibc v0 ([' '] ++ ".123".toList)
      = some (LEPT_PARSE_INVALID_VALUE, { n := v0.n, type := LEPT_NULL }) ∧
    lept_parse sampleLibc v0 ([' '] ++ "1.".toList)
      = some (LEPT_PARSE_INVALID_VALUE, { n := v0.n, type := LEPT_NULL }) ∧
    lept_parse sampleLibc v0 ([' '] ++ "1.5e+".toList)
      = some (LEPT_PARSE_INVALID_VALUE, { n := v0.n, type := LEPT_NULL }) :=
  ⟨lept_parse_invalid_number sampleLibc v0 [' '] ".123".toList (by decide) (by decide)
      (by decide) (by decide) (by decide) (by decide)
      (Or.inl (by decide)),
    lept_parse_invalid_number sampleLibc v0 [' '] "1.".toList (by decide) (by decide)
      (by decide) (by decide) (by decide) (by decide)
      (Or.inr (Or.inl ⟨[], ['1'], [], rfl, Or.inl rfl,
        Or.inr ⟨'1', [], rfl, by decide, by decide⟩, by decide⟩)),
    lept_parse_invalid_number sampleLibc v0 [' '] "1.5e+".toList (by decide) (by decide)
      (by decide) (by decide) (by decide) (by decide)
      (Or.inr (Or.inr ⟨[], ['1'], ['.', '5'], 'e', ['+'], rfl, Or.inl rfl,
        Or.inr ⟨'1', [], rfl, by decide, by decide⟩,
        Or.inr ⟨['5'], rfl, by decide, by decide⟩, Or.inl rfl, by decide⟩))⟩

/-- C9: for every literal among true, false and null, every whitespace string w1,
every whitespace string w2 (non-empty or not) and every non-empty string x whose
first character is not space, tab, newline or carriage-return, `lept_parse` on
w1 ++ literal ++ w2 ++ x returns `LEPT_PARSE_ROOT_NOT_SINGULAR` and the tag on
return is `LEPT_NULL`. -/
theorem lept_parse_root_not_singular {F : Type} (L : Libc F) (v : lept_value F)
    (lit w1 w2 : List Char) (ch : Char) (rest : List Char) (hl : IsLiteral lit)
    (h1 : IsWs w1) (h2 : IsWs w2) (hch : is_whitespace ch = false) (h0 : ch ≠ NUL) :
    lept_parse L v (w1 ++ lit ++ w2 ++ ch :: rest)
      = some (LEPT_PARSE_ROOT_NOT_SINGULAR, { n := v.n, type := LEPT_NULL }) :=
  lept_parse_literal_trailing L v hl h1 h2 hch h0 rest

theorem lept_parse_root_not_singular_witness :
    lept_parse sampleLibc v0 ([] ++ "true".toList ++ [' '] ++ 'x' :: [])
      = some (LEPT_PARSE_ROOT_NOT_SINGULAR, { n := v0.n, type := LEPT_NULL }) :=
  lept_parse_root_not_singular sampleLibc v0 "true".toList [] [' '] 'x' [] (Or.inl rfl)
    (by decide) (by decide) (by decide) (by decide)

/-- C10, as stated, fails: on the text made of 1 and a space `lept_parse` returns
`LEPT_PARSE_ROOT_NOT_SINGULAR`, and the text is in no way whitespace, then a valid
value, then a rest with a character that is not whitespace. -/
theorem lept_parse_one_space_counterexample :
    lept_parse sampleLibc v0 ['1', ' ']
      = some (LEPT_PARSE_ROOT_NOT_SINGULAR, { n := v0.n, type := LEPT_NULL }) ∧
    ¬ ∃ w x rest, ['1', ' '] = w ++ x ++ rest ∧ IsWs w ∧ IsValidValue x ∧ ¬ IsWs rest := by
  refine ⟨by decide, ?_⟩
  rintro ⟨w, x, rest, h, hw, hx, hr⟩
  cases w with
  | cons a w1 =>
    simp only [List.cons_append, List.cons.injEq] at h
    have ha := (isWs_cons.mp hw).1
    rw [← h.1] at ha
    exact absurd ha (by decide)
  | nil =>
    simp only [List.nil_append] at h
    cases x with
    | nil =>
      rcases hx with hx | hx | hx | hx
      · exact absurd hx (by decide)
      · exact absurd hx (by decide)
      · exact absurd hx (by decide)
      · exact number_grammar_nil hx
    | cons a x1 =>
      simp only [List.cons_append, List.cons.injEq] at h
      cases x1 with
      | nil =>
        simp only [List.nil_append] at h
        apply hr
        rw [← h.2]
        decide
      | cons b x2 =>
        simp only [List.cons_append, List.cons.injEq] at h
        have h3 := h.2.2
        have : rest = [] := by
          cases rest with
          | nil => rfl
          | cons c r1 => simp at h3
        apply hr
        rw [this]
        exact isWs_nil

/-- C10, amended: if `lept_parse` returns `LEPT_PARSE_ROOT_NOT_SINGULAR` then the
text is w ++ x ++ rest with w whitespace, x a valid value (true, false, null or a
number of the grammar) and rest not empty; rest contains a character that is not
whitespace when x is a literal, whereas after a number rest may be whitespace
only. -/
theorem lept_parse_root_not_singular_form {F : Type} (L : Libc F) (v v1 : lept_value F)
    (s : List Char) (h : lept_parse L v s = some (LEPT_PARSE_ROOT_NOT_SINGULAR, v1)) :
    ∃ w x rest, s = w ++ x ++ rest ∧ IsWs w ∧ IsValidValue x ∧ rest ≠ [] ∧
      (NumberGrammar x ∨ ¬ IsWs rest) := by
  have hsplit := (List.takeWhile_append_dropWhile is_whitespace s).symm
  have hw1 := takeWhile_isWs s
  rcases lept_parse_cases L v s with ⟨-, h1⟩ | ⟨ch, body, tag, t, hl, ht, h1⟩ | ⟨-, h1⟩
  · rw [h1] at h
    simp at h
  · rw [h1] at h
    rw [ht] at hsplit
    simp only [literal_result, Option.some.injEq] at h
    split at h
    · rename_i hb
      split at h
      · rename_i hp
        have hnw : ¬ IsWs (t.drop body.length) := by
          intro hc
          rw [dropWhile_ws_all hc] at hp
          exact hp rfl
        have hne : t.drop body.length ≠ [] := by
          intro hc
          rw [hc] at hnw
          exact hnw isWs_nil
        have e : t = body ++ t.drop body.length := by
          conv_lhs => rw [← List.take_append_drop body.length t, hb]
        refine ⟨_, ch :: body, t.drop body.length, ?_, hw1, ?_, hne, Or.inr hnw⟩
        · rw [List.append_assoc, List.cons_append, ← e]
          exact hsplit
        · simp only [literals, List.mem_cons, Prod.mk.injEq, List.mem_singleton,
            List.not_mem_nil, or_false] at hl
          rcases hl with ⟨rfl, rfl, rfl⟩ | ⟨rfl, rfl, rfl⟩ | ⟨rfl, rfl, rfl⟩
          · exact Or.inl rfl
          · exact Or.inr (Or.inl rfl)
          · exact Or.inr (Or.inr (Or.inl rfl))
      · simp at h
    · simp at h
  · rw [h1] at h
    simp only [number_result, Option.some.injEq] at h
    split at h
    · split at h <;> simp at h
    · have hj : is_json_format (s.dropWhile is_whitespace) = LEPT_PARSE_ROOT_NOT_SINGULAR :=
        congrArg (fun r => r.1) h
      obtain ⟨n, q, e, hn, hst⟩ := is_json_format_sound (by rw [hj]; decide)
      rw [hj] at hst
      have hq : q ≠ [] := by
        rintro rfl
        simp at hst
      refine ⟨_, n, q, ?_, hw1, Or.inr (Or.inr (Or.inr hn)), hq, Or.inl hn⟩
      rw [List.append_assoc, ← e]
      exact hsplit

theorem lept_parse_root_not_singular_form_witness :
    lept_parse sampleLibc v0 [' ', '1', '.', '5', ' ']
      = some (LEPT_PARSE_ROOT_NOT_SINGULAR, { n := v0.n, type := LEPT_NULL }) ∧
    ∃ w x rest, [' ', '1', '.', '5', ' '] = w ++ x ++ rest ∧ IsWs w ∧ IsValidValue x ∧
      rest ≠ [] ∧ (NumberGrammar x ∨ ¬ IsWs rest) :=
  ⟨by decide,
    lept_parse_root_not_singular_form sampleLibc v0 { n := v0.n, type := LEPT_NULL }
      [' ', '1', '.', '5', ' '] (by decide)⟩

/-- C11: for every string n of the number grammar, every leading whitespace
string w and every non-empty text whose first character is no digit, no `.`, no
`e` and no `E` (a whitespace character, for one), `lept_parse` on
w ++ n ++ text returns `LEPT_PARSE_ROOT_NOT_SINGULAR` with tag `LEPT_NULL`. -/
theorem lept_parse_number_then_text {F : Type} (L : Libc F) (v : lept_value F)
    (w n : List Char) (ch : Char) (rest : List Char) (hw : IsWs w) (hn : NumberGrammar n)
    (hd : ¬ Digit ch) (h1 : ch ≠ '.') (h2 : ch ≠ 'e') (h3 : ch ≠ 'E') (h0 : ch ≠ NUL) :
    lept_parse L v (w ++ n ++ ch :: rest)
      = some (LEPT_PARSE_ROOT_NOT_SINGULAR, { n := v.n, type := LEPT_NULL }) := by
  have hend : EndsNumber (ch :: rest) :=
    ⟨(not_digit_iff ch).mpr hd, h1, h2, h3⟩
  have hj := is_json_format_complete hn hend
  simp only [peek_cons, ne_eq, h0, not_false_eq_true, if_true] at hj
  obtain ⟨p1, p2, p3, p4, p5⟩ := number_start (number_grammar_peek hn (ch :: rest))
  rw [List.append_assoc, lept_parse_ws_append L v hw, lept_parse_number_eq L v p1 p2 p3 p4 p5]
  simp [number_result, hj]

theorem lept_parse_number_then_text_witness :
    lept_parse sampleLibc v0 (['\t'] ++ "-1.5e3".toList ++ ' ' :: [' ', '\n'])
      = some (LEPT_PARSE_ROOT_NOT_SINGULAR, { n := v0.n, type := LEPT_NULL }) :=
  lept_parse_number_then_text sampleLibc v0 ['\t'] "-1.5e3".toList ' ' [' ', '\n'] (by decide)
    ⟨['-'], ['1'], ['.', '5'], ['e', '3'], rfl, Or.inr rfl,
      Or.inr ⟨'1', [], rfl, by decide, by decide⟩,
      Or.inr ⟨['5'], rfl, by decide, by decide⟩,
      Or.inr ⟨'e', [], ['3'], rfl, Or.inl rfl, Or.inl rfl, by decide, by decide⟩⟩
    (by decide) (by decide) (by decide) (by decide) (by decide)

/-- C12: on every text, `lept_parse` returns `LEPT_PARSE_NUMBER_TOO_BIG` exactly
when the text after the leading whitespace is a string of the number grammar
whose conversion overflows (range error with result `HUGE_VAL` or `-HUGE_VAL`);
and a string of the grammar whose conversion does not overflow, a range error
with a finite result included, gives `LEPT_PARSE_OK`. -/
theorem lept_parse_too_big_iff {F : Type} (L : Libc F) (v : lept_value F) (s : List Char)
    (hs : IsCStr s) :
    ((∃ v1, lept_parse L v s = some (LEPT_PARSE_NUMBER_TOO_BIG, v1)) ↔
      ∃ w n, s = w ++ n ∧ IsWs w ∧ NumberGrammar n ∧ strtod_overflows L n = true) ∧
    (∀ w n, s = w ++ n → IsWs w → NumberGrammar n → strtod_overflows L n = false →
      lept_parse L v s = some (LEPT_PARSE_OK, { n := (L.strtod n).1, type := LEPT_NUMBER })) := by
  have key : ∀ w n, s = w ++ n → IsWs w → NumberGrammar n →
      lept_parse L v s = some (
        if strtod_overflows L n = true then
          (LEPT_PARSE_NUMBER_TOO_BIG, { n := (L.strtod n).1, type := LEPT_NULL })
        else (LEPT_PARSE_OK, { n := (L.strtod n).1, type := LEPT_NUMBER })) := by
    intro w n e hw hn
    have hj : is_json_format n = LEPT_PARSE_OK := by
      have := is_json_format_complete hn (r := []) ⟨by decide, by decide, by decide, by decide⟩
      simpa using this
    have hp := number_grammar_peek hn []
    rw [List.append_nil] at hp
    obtain ⟨p1, p2, p3, p4, p5⟩ := number_start hp
    rw [e, lept_parse_ws_append L v hw, lept_parse_number_eq L v p1 p2 p3 p4 p5]
    simp only [number_result, hj, if_true, strtod_overflows]
  refine ⟨⟨?_, ?_⟩, ?_⟩
  · rintro ⟨v1, h⟩
    rcases lept_parse_cases L v s with ⟨-, h1⟩ | ⟨ch, body, tag, t, hl, ht, h1⟩ | ⟨-, h1⟩
    · rw [h1] at h
      simp at h
    · rw [h1] at h
      simp only [literal_result, Option.some.injEq] at h
      split at h
      · split at h <;> simp at h
      · simp at h
    · rw [h1] at h
      simp only [number_result, Option.some.injEq] at h
      split at h
      · rename_i hj
        split at h
        · rename_i hov
          refine ⟨s.takeWhile is_whitespace, s.dropWhile is_whitespace,
            (List.takeWhile_append_dropWhile is_whitespace s).symm, takeWhile_isWs s,
            (is_json_format_ok_iff (cstr_dropWhile hs _)).mp hj, hov⟩
        · simp at h
      · rename_i hj
        have h2 := congrArg (fun r => r.1) h
        rcases is_json_format_cases (s.dropWhile is_whitespace) with h3 | h3 | h3
        · rw [h3] at h2
          simp at h2
        · rw [h3] at h2
          simp at h2
        · exact absurd h3 hj
  · rintro ⟨w, n, e, hw, hn, hov⟩
    exact ⟨_, by rw [key w n e hw hn, if_pos hov]⟩
  · intro w n e hw hn hov
    rw [key w n e hw hn]
    simp [hov]

theorem lept_parse_too_big_iff_witness :
    IsCStr "1e309".toList ∧
    (∃ v1, lept_parse sampleLibc v0 "1e309".toList = some (LEPT_PARSE_NUMBER_TOO_BIG, v1)) ∧
    lept_parse sampleLibc v0 "1e-400".toList
      = some (LEPT_PARSE_OK,
          { n := (sampleLibc.strtod "1e-400".toList).1, type := LEPT_NUMBER }) :=
  ⟨by decide,
    (lept_parse_too_big_iff sampleLibc v0 "1e309".toList (by decide)).1.mpr
      ⟨[], "1e309".toList, rfl, by decide,
        ⟨[], ['1'], [], "e309".toList, rfl, Or.inl rfl,
          Or.inr ⟨'1', [], rfl, by decide, by decide⟩, Or.inl rfl,
          Or.inr ⟨'e', [], "309".toList, rfl, Or.inl rfl, Or.inl rfl, by decide, by decide⟩⟩,
        by decide!⟩,
    (lept_parse_too_big_iff sampleLibc v0 "1e-400".toList (by decide)).2
      [] "1e-400".toList rfl (by decide)
      ⟨[], ['1'], [], "e-400".toList, rfl, Or.inl rfl,
        Or.inr ⟨'1', [], rfl, by decide, by decide⟩, Or.inl rfl,
        Or.inr ⟨'e', ['-'], "400".toList, rfl, Or.inl rfl, Or.inr (Or.inr rfl),
          by decide, by decide⟩⟩
      (by decide!)⟩

/-- C13: leading whitespace has no effect.  For every text s and every string w
made only of space, tab, newline and carriage-return, `lept_parse` on w ++ s
returns what it returns on s: the same status, the same tag and the same
payload. -/
theorem lept_parse_leading_whitespace {F : Type} (L : Libc F) (v : lept_value F)
    (w s : List Char) (hw : IsWs w) :
    lept_parse L v (w ++ s) = lept_parse L v s := by
  simp only [lept_parse, lept_parse_whitespace_append hw]

theorem lept_parse_leading_whitespace_witness :
    lept_parse sampleLibc v0 ([' ', '\t', '\n', '\r'] ++ "12.5".toList)
      = lept_parse sampleLibc v0 "12.5".toList :=
  lept_parse_leading_whitespace sampleLibc v0 [' ', '\t', '\n', '\r'] "12.5".toList
    (by decide)

/-- The cases of `lept_parse` by the first character after the leading
whitespace, for all prior values at once. -/
theorem lept_parse_cases_all {F : Type} (L : Libc F) (s : List Char) :
    (peek (s.dropWhile is_whitespace) = NUL ∧ ∀ v : lept_value F,
      lept_parse L v s = some (LEPT_PARSE_EXPECT_VALUE, { n := v.n, type := LEPT_NULL })) ∨
    (∃ ch body tag t, (ch, body, tag) ∈ literals ∧ s.dropWhile is_whitespace = ch :: t ∧
      ∀ v : lept_value F, lept_parse L v s = some (literal_result v body tag t)) ∨
    (peek (s.dropWhile is_whitespace) ≠ NUL ∧ ∀ v : lept_value F,
      lept_parse L v s = some (number_result L v (s.dropWhile is_whitespace))) := by
  have hs : ∀ v : lept_value F,
      lept_parse L v s = lept_parse L v (s.dropWhile is_whitespace) := by
    intro v
    conv_lhs => rw [← List.takeWhile_append_dropWhile is_whitespace s]
    exact lept_parse_ws_append L v (takeWhile_isWs s) _
  have hw := peek_dropWhile_ws s
  simp only [hs]
  generalize s.dropWhile is_whitespace = r at hw
  by_cases h0 : peek r = NUL
  · left
    refine ⟨h0, fun v => ?_⟩
    cases r with
    | nil => exact lept_parse_nil L v
    | cons a t =>
      simp only [peek_cons] at h0
      subst h0
      simp [lept_parse, lept_parse_whitespace, lept_parse_value, peek, NUL, is_whitespace]
  · right
    by_cases ht : peek r = 't'
    · left
      have hr := peek_eq_cons ht (by decide)
      have hm : ('t', "rue".toList, LEPT_TRUE) ∈ literals := by simp [literals]
      refine ⟨'t', "rue".toList, LEPT_TRUE, r.tail, hm, hr, fun v => ?_⟩
      conv_lhs => rw [hr]
      exact lept_parse_literal_eq L v hm _
    by_cases hf : peek r = 'f'
    · left
      have hr := peek_eq_cons hf (by decide)
      have hm : ('f', "alse".toList, LEPT_FALSE) ∈ literals := by simp [literals]
      refine ⟨'f', "alse".toList, LEPT_FALSE, r.tail, hm, hr, fun v => ?_⟩
      conv_lhs => rw [hr]
      exact lept_parse_literal_eq L v hm _
    by_cases hn : peek r = 'n'
    · left
      have hr := peek_eq_cons hn (by decide)
      have hm : ('n', "ull".toList, LEPT_NULL) ∈ literals := by simp [literals]
      refine ⟨'n', "ull".toList, LEPT_NULL, r.tail, hm, hr, fun v => ?_⟩
      conv_lhs => rw [hr]
      exact lept_parse_literal_eq L v hm _
    · right
      exact ⟨h0, fun v => lept_parse_number_eq L v ht hf hn h0 hw⟩

theorem literals_tag {ch : Char} {body : List Char} {tag : lept_type}
    (hl : (ch, body, tag) ∈ literals) : tag ≠ LEPT_NUMBER := by
  simp only [literals, List.mem_cons, Prod.mk.injEq, List.mem_singleton, List.not_mem_nil,
    or_false] at hl
  rcases hl with ⟨-, -, rfl⟩ | ⟨-, -, rfl⟩ | ⟨-, -, rfl⟩ <;> decide

/-- C14: `lept_parse` is a function of its text only.  For every text and any two
prior contents of the value, the two calls return the same status and the same
tag, and the same payload whenever the tag on return is `LEPT_NUMBER`. -/
theorem lept_parse_prior_value_irrelevant {F : Type} (L : Libc F) (v v' : lept_value F)
    (s : List Char) :
    ∃ st a b, lept_parse L v s = some (st, a) ∧ lept_parse L v' s = some (st, b) ∧
      a.type = b.type ∧ (a.type = LEPT_NUMBER → a.n = b.n) := by
  have hnull : LEPT_NULL ≠ LEPT_NUMBER := by decide
  rcases lept_parse_cases_all L s with ⟨-, h⟩ | ⟨ch, body, tag, t, hl, -, h⟩ | ⟨-, h⟩
  · exact ⟨_, _, _, h v, h v', rfl, fun hc => absurd hc hnull⟩
  · have ht := literals_tag hl
    rw [h v, h v']
    unfold literal_result
    split
    · split
      · exact ⟨_, _, _, rfl, rfl, rfl, fun hc => absurd hc hnull⟩
      · exact ⟨_, _, _, rfl, rfl, rfl, fun hc => absurd hc ht⟩
    · exact ⟨_, _, _, rfl, rfl, rfl, fun hc => absurd hc hnull⟩
  · rw [h v, h v']
    unfold number_result
    split
    · split
      · exact ⟨_, _, _, rfl, rfl, rfl, fun _ => rfl⟩
      · exact ⟨_, _, _, rfl, rfl, rfl, fun _ => rfl⟩
    · exact ⟨_, _, _, rfl, rfl, rfl, fun hc => absurd hc hnull⟩

/-- C15: validation precedes conversion.  `lept_parse_number` returns the value
untouched whenever `is_json_format` does not answer `LEPT_PARSE_OK`; on every
text on which `lept_parse` returns ExpectValue, InvalidValue or RootNotSingular
the payload on return is the payload on entry; and the payload differs from the
one on entry only when the status is Ok with tag Number, or NumberTooBig. -/
theorem lept_parse_payload_frame {F : Type} (L : Libc F) (v v1 : lept_value F)
    (s : List Char) (st : ParseStatus) (h : lept_parse L v s = some (st, v1)) :
    (∀ (c : lept_context) (u : lept_value F), is_json_format c.json ≠ LEPT_PARSE_OK →
      lept_parse_number L c u = (is_json_format c.json, c, u)) ∧
    (st = LEPT_PARSE_EXPECT_VALUE ∨ st = LEPT_PARSE_INVALID_VALUE ∨
      st = LEPT_PARSE_ROOT_NOT_SINGULAR → v1.n = v.n) ∧
    (v1.n ≠ v.n →
      (st = LEPT_PARSE_OK ∧ v1.type = LEPT_NUMBER) ∨ st = LEPT_PARSE_NUMBER_TOO_BIG) := by
  have hnum : ∀ (c : lept_context) (u : lept_value F),
      is_json_format c.json ≠ LEPT_PARSE_OK →
      lept_parse_number L c u = (is_json_format c.json, c, u) := by
    intro c u hj
    simp [lept_parse_number, hj]
  have main : v1.n = v.n ∨
      ((st = LEPT_PARSE_OK ∧ v1.type = LEPT_NUMBER) ∨ st = LEPT_PARSE_NUMBER_TOO_BIG) := by
    rcases lept_parse_cases L v s with ⟨-, h1⟩ | ⟨ch, body, tag, t, hl, ht, h1⟩ | ⟨-, h1⟩
    · rw [h1] at h
      simp only [Option.some.injEq, Prod.mk.injEq] at h
      left
      rw [← h.2]
    · rw [h1] at h
      simp only [literal_result, Option.some.injEq] at h
      left
      split at h
      · split at h
        · simp only [Prod.mk.injEq] at h
          rw [← h.2]
        · simp only [Prod.mk.injEq] at h
          rw [← h.2]
      · simp only [Prod.mk.injEq] at h
        rw [← h.2]
    · rw [h1] at h
      simp only [number_result, Option.some.injEq] at h
      split at h
      · right
        split at h
        · simp only [Prod.mk.injEq] at h
          exact Or.inr h.1.symm
        · simp only [Prod.mk.injEq] at h
          refine Or.inl ⟨h.1.symm, ?_⟩
          rw [← h.2]
      · left
        simp only [Prod.mk.injEq] at h
        rw [← h.2]
  refine ⟨hnum, ?_, ?_⟩
  · intro hst
    rcases main with hm | ⟨hm, -⟩ | hm
    · exact hm
    · rcases hst with h2 | h2 | h2 <;> rw [h2] at hm <;> exact absurd hm (by decide)
    · rcases hst with h2 | h2 | h2 <;> rw [h2] at hm <;> exact absurd hm (by decide)
  · intro hne
    rcases main with hm | hm
    · exact absurd hm hne
    · exact hm

theorem lept_parse_payload_frame_witness :
    lept_parse sampleLibc v0 "1.5x".toList
      = some (LEPT_PARSE_ROOT_NOT_SINGULAR, { n := v0.n, type := LEPT_NULL }) ∧
    (lept_value.mk v0.n LEPT_NULL).n = v0.n :=
  ⟨by decide,
    (lept_parse_payload_frame sampleLibc v0 { n := v0.n, type := LEPT_NULL } "1.5x".toList
      LEPT_PARSE_ROOT_NOT_SINGULAR (by decide)).2.1 (Or.inr (Or.inr rfl))⟩

/-! ## Assertions and the generic literal matcher -/

theorem EXPECT_some_iff (c : lept_context) (ch : Char) :
    (∃ c1, EXPECT c ch = some c1) ↔ peek c.json = ch := by
  unfold EXPECT
  split <;> simp_all

theorem lept_parse_true_some_iff {F : Type} (c : lept_context) (v : lept_value F) :
    (∃ r, lept_parse_true c v = some r) ↔ peek c.json = 't' := by
  unfold lept_parse_true EXPECT
  split
  · rename_i h
    split at h <;> simp_all
  · rename_i c1 h
    split at h
    · rename_i hp
      simp only [hp, iff_true]
      split <;> exact ⟨_, rfl⟩
    · simp at h

theorem lept_parse_false_some_iff {F : Type} (c : lept_context) (v : lept_value F) :
    (∃ r, lept_parse_false c v = some r) ↔ peek c.json = 'f' := by
  unfold lept_parse_false EXPECT
  split
  · rename_i h
    split at h <;> simp_all
  · rename_i c1 h
    split at h
    · rename_i hp
      simp only [hp, iff_true]
      split <;> exact ⟨_, rfl⟩
    · simp at h

theorem lept_parse_null_some_iff {F : Type} (c : lept_context) (v : lept_value F) :
    (∃ r, lept_parse_null c v = some r) ↔ peek c.json = 'n' := by
  unfold lept_parse_null EXPECT
  split
  · rename_i h
    split at h <;> simp_all
  · rename_i c1 h
    split at h
    · rename_i hp
      simp only [hp, iff_true]
      split <;> exact ⟨_, rfl⟩
    · simp at h

theorem lept_parse_literal_true {F : Type} (c : lept_context) (v : lept_value F) :
    lept_parse_literal c v "true".toList LEPT_TRUE = lept_parse_true c v := by
  have h3 : strlen_minus_one "true".toList = 3 := by decide
  have hr : List.range 3 = [0, 1, 2] := by decide
  have h0 : at_index "true".toList 0 = 't' := by decide
  have h1 : at_index "true".toList (0 + 1) = 'r' := by decide
  have h2 : at_index "true".toList (1 + 1) = 'u' := by decide
  have h4 : at_index "true".toList (2 + 1) = 'e' := by decide
  unfold lept_parse_literal lept_parse_true
  rw [h3, hr, h0]
  simp only [List.any_cons, List.any_nil, h1, h2, h4, Bool.or_false, Bool.or_assoc]

theorem lept_parse_literal_false {F : Type} (c : lept_context) (v : lept_value F) :
    lept_parse_literal c v "false".toList LEPT_FALSE = lept_parse_false c v := by
  have h3 : strlen_minus_one "false".toList = 4 := by decide
  have hr : List.range 4 = [0, 1, 2, 3] := by decide
  have h0 : at_index "false".toList 0 = 'f' := by decide
  have h1 : at_index "false".toList (0 + 1) = 'a' := by decide
  have h2 : at_index "false".toList (1 + 1) = 'l' := by decide
  have h4 : at_index "false".toList (2 + 1) = 's' := by decide
  have h5 : at_index "false".toList (3 + 1) = 'e' := by decide
  unfold lept_parse_literal lept_parse_false
  rw [h3, hr, h0]
  simp only [List.any_cons, List.any_nil, h1, h2, h4, h5, Bool.or_false, Bool.or_assoc]

/-- C17: the assertion of `EXPECT` never fails under `lept_parse`.  On every text
and prior value `lept_parse` returns (it does not abort), and so does
`lept_parse_value` on every context; each literal matcher aborts exactly when the
current character is not the first character of its literal, and
`lept_parse_value` calls it on that character only. -/
theorem lept_parse_never_aborts {F : Type} (L : Libc F) (v : lept_value F) (s : List Char) :
    (∃ r, lept_parse L v s = some r) ∧
    (∀ (c : lept_context) (u : lept_value F), ∃ r, lept_parse_value L c u = some r) ∧
    (∀ (c : lept_context) (u : lept_value F),
      ((∃ r, lept_parse_true c u = some r) ↔ peek c.json = 't') ∧
      ((∃ r, lept_parse_false c u = some r) ↔ peek c.json = 'f') ∧
      ((∃ r, lept_parse_literal c u "null".toList LEPT_NULL = some r) ↔
        peek c.json = 'n')) := by
  have hval : ∀ (c : lept_context) (u : lept_value F),
      ∃ r, lept_parse_value L c u = some r := by
    intro c u
    unfold lept_parse_value
    split
    · rename_i h
      exact (lept_parse_true_some_iff c u).mpr h
    · split
      · rename_i h
        exact (lept_parse_false_some_iff c u).mpr h
      · split
        · rename_i h
          rw [lept_parse_literal_null]
          exact (lept_parse_null_some_iff c u).mpr h
        · split <;> exact ⟨_, rfl⟩
  refine ⟨?_, hval, fun c u => ⟨lept_parse_true_some_iff c u, lept_parse_false_some_iff c u, ?_⟩⟩
  · rcases lept_parse_cases L v s with ⟨-, h⟩ | ⟨_, _, _, _, -, -, h⟩ | ⟨-, h⟩ <;>
      exact ⟨_, h⟩
  · rw [lept_parse_literal_null]
    exact lept_parse_null_some_iff c u

/-- C19: the generic literal matcher agrees with the hand-written ones.  On every
context and value, `lept_parse_literal` with null and `LEPT_NULL` returns what
`lept_parse_null` returns (status, cursor and value), with true and `LEPT_TRUE`
what `lept_parse_true` returns, with false and `LEPT_FALSE` what
`lept_parse_false` returns; they do return when the current character is the
first character of the literal. -/
theorem lept_parse_literal_agrees {F : Type} (c : lept_context) (v : lept_value F) :
    (lept_parse_literal c v "null".toList LEPT_NULL = lept_parse_null c v ∧
      ((∃ r, lept_parse_null c v = some r) ↔ peek c.json = 'n')) ∧
    (lept_parse_literal c v "true".toList LEPT_TRUE = lept_parse_true c v ∧
      ((∃ r, lept_parse_true c v = some r) ↔ peek c.json = 't')) ∧
    (lept_parse_literal c v "false".toList LEPT_FALSE = lept_parse_false c v ∧
      ((∃ r, lept_parse_false c v = some r) ↔ peek c.json = 'f')) :=
  ⟨⟨lept_parse_literal_null c v, lept_parse_null_some_iff c v⟩,
    ⟨lept_parse_literal_true c v, lept_parse_true_some_iff c v⟩,
    ⟨lept_parse_literal_false c v, lept_parse_false_some_iff c v⟩⟩

/-! ## The cursor -/

theorem strlen_minus_one_eq {literal : List Char} (hl : literal ≠ [])
    (hlen : literal.length < 2 ^ 64) : strlen_minus_one literal = literal.length - 1 := by
  have h1 : 0 < literal.length := List.length_pos.mpr hl
  unfold strlen_minus_one
  have e : literal.length + 2 ^ 64 - 1 = (literal.length - 1) + 2 ^ 64 := by omega
  rw [e, Nat.add_mod_right]
  exact Nat.mod_eq_of_lt (by omega)

theorem at_index_ne_nul {l : List Char} {i : Nat} (h : at_index l i ≠ NUL) : i < l.length := by
  by_contra hc
  exact h (List.getD_eq_default l NUL (by omega))

theorem at_index_cstr {l : List Char} (hl : IsCStr l) {i : Nat} (h : i < l.length) :
    at_index l i ≠ NUL := by
  unfold at_index
  rw [List.getD_eq_getElem l NUL h]
  intro hc
  exact hl (hc ▸ List.getElem_mem h)

/-- The cursor after `lept_parse_literal`: a suffix of the text on entry, one
character further on a mismatch and the whole literal further on success. -/
theorem lept_parse_literal_cursor {F : Type} {c c1 : lept_context} {v v1 : lept_value F}
    {literal : List Char} {type : lept_type} {st : ParseStatus} (hl : literal ≠ [])
    (hc : IsCStr literal) (hlen : literal.length < 2 ^ 64)
    (h : lept_parse_literal c v literal type = some (st, c1, v1)) :
    c1.json <:+ c.json ∧
      c.json.length = c1.json.length + (if st = LEPT_PARSE_OK then literal.length else 1) := by
  have hpos : 0 < literal.length := List.length_pos.mpr hl
  have hm := strlen_minus_one_eq hl hlen
  unfold lept_parse_literal EXPECT at h
  rw [hm] at h
  split at h
  · simp at h
  · rename_i c2 he
    split at he
    · rename_i hp
      simp only [Option.some.injEq] at he
      subst he
      have h0 : peek c.json ≠ NUL := by
        rw [hp]
        exact at_index_cstr hc hpos
      have hcons := peek_eq_cons rfl h0
      have hlen1 : c.json.length = c.json.tail.length + 1 := by
        conv_lhs => rw [hcons]
        simp
      dsimp only at h
      split at h
      · simp only [Option.some.injEq, Prod.mk.injEq] at h
        obtain ⟨h1, h2, -⟩ := h
        subst h1 h2
        exact ⟨List.tail_suffix _, by simpa using hlen1⟩
      · rename_i hany
        simp only [Option.some.injEq, Prod.mk.injEq] at h
        obtain ⟨h1, h2, -⟩ := h
        subst h1 h2
        have hall : ∀ i, i < literal.length - 1 →
            at_index c.json.tail i = at_index literal (i + 1) := by
          intro i hi
          by_contra hne
          apply hany
          rw [List.any_eq_true]
          exact ⟨i, List.mem_range.mpr hi, by simpa using hne⟩
        have hle : literal.length - 1 ≤ c.json.tail.length := by
          by_contra hlt
          have hi : c.json.tail.length < literal.length - 1 := by omega
          have e1 := hall _ hi
          have e2 : at_index c.json.tail c.json.tail.length = NUL :=
            List.getD_eq_default _ NUL (le_refl _)
          exact at_index_cstr hc (by omega) (e1 ▸ e2)
        refine ⟨(List.drop_suffix _ _).trans (List.tail_suffix _), ?_⟩
        simp only [if_true, List.length_drop]
        omega
    · simp at he

theorem lept_parse_number_cursor {F : Type} (L : Libc F) (c : lept_context)
    (v : lept_value F) :
    (lept_parse_number L c v).2.1.json <:+ c.json ∧
      ((lept_parse_number L c v).1 = LEPT_PARSE_OK →
        peek (lept_parse_number L c v).2.1.json = NUL ∧
        (lept_parse_number L c v).2.2.type = LEPT_NUMBER) ∧
      ((lept_parse_number L c v).1 ≠ LEPT_PARSE_OK →
        (lept_parse_number L c v).2.1 = c ∧ (lept_parse_number L c v).2.2.type = v.type) := by
  have hend : ∀ l : List Char, peek (l.dropWhile (fun ch => ch != NUL)) = NUL := by
    intro l
    induction l with
    | nil => rfl
    | cons a t ih =>
      by_cases ha : a = NUL
      · simp [List.dropWhile_cons, ha]
      · simpa [List.dropWhile_cons, ha] using ih
  unfold lept_parse_number
  dsimp only
  split
  · rename_i hj
    exact ⟨List.suffix_refl _, fun h => absurd h hj, fun _ => ⟨rfl, rfl⟩⟩
  · split
    · have hne : LEPT_PARSE_NUMBER_TOO_BIG ≠ LEPT_PARSE_OK := by decide
      exact ⟨List.suffix_refl _, fun h => absurd h hne, fun _ => ⟨rfl, rfl⟩⟩
    · exact ⟨List.dropWhile_suffix _, fun _ => ⟨hend _, rfl⟩, fun h => absurd rfl h⟩

theorem lept_parse_literal_tag {F : Type} {c c1 : lept_context} {v v1 : lept_value F}
    {literal : List Char} {type : lept_type}
    (h : lept_parse_literal c v literal type = some (LEPT_PARSE_OK, c1, v1)) :
    v1.type = type := by
  unfold lept_parse_literal at h
  split at h
  · simp at h
  · split at h
    · simp at h
    · simp only [Option.some.injEq, Prod.mk.injEq, true_and] at h
      rw [← h.2]

theorem isCStr_true : IsCStr "true".toList := by decide

theorem isCStr_false : IsCStr "false".toList := by decide

theorem isCStr_null : IsCStr "null".toList := by decide

/-- C16: the cursor only moves forward.  On every context, each of
`lept_parse_whitespace`, `lept_parse_true`, `lept_parse_false`,
`lept_parse_literal` (for a literal that is a non-empty C string),
`lept_parse_number` and `lept_parse_value` leaves the cursor at a suffix of the
text on entry; the literal matchers advance by exactly one character on a
mismatch and by the length of the literal on success, so within the text; and
when `lept_parse_value` returns `LEPT_PARSE_OK` with tag `LEPT_NUMBER` the
cursor is at the end-of-input marker. -/
theorem cursor_moves_forward {F : Type} (L : Libc F) (c : lept_context) (v : lept_value F)
    (literal : List Char) (type : lept_type) (hl : literal ≠ []) (hc : IsCStr literal)
    (hlen : literal.length < 2 ^ 64) :
    (lept_parse_whitespace c).json <:+ c.json ∧
    (∀ st c1 v1, lept_parse_true c v = some (st, c1, v1) →
      c1.json <:+ c.json ∧
        c.json.length = c1.json.length + (if st = LEPT_PARSE_OK then 4 else 1)) ∧
    (∀ st c1 v1, lept_parse_false c v = some (st, c1, v1) →
      c1.json <:+ c.json ∧
        c.json.length = c1.json.length + (if st = LEPT_PARSE_OK then 5 else 1)) ∧
    (∀ st c1 v1, lept_parse_literal c v literal type = some (st, c1, v1) →
      c1.json <:+ c.json ∧
        c.json.length
          = c1.json.length + (if st = LEPT_PARSE_OK then literal.length else 1)) ∧
    (lept_parse_number L c v).2.1.json <:+ c.json ∧
    (∀ st c1 v1, lept_parse_value L c v = some (st, c1, v1) →
      c1.json <:+ c.json ∧
        (st = LEPT_PARSE_OK → v1.type = LEPT_NUMBER → peek c1.json = NUL)) := by
  have htrue : ∀ st c1 (v1 : lept_value F), lept_parse_true c v = some (st, c1, v1) →
      c1.json <:+ c.json ∧
        c.json.length = c1.json.length + (if st = LEPT_PARSE_OK then 4 else 1) := by
    intro st c1 v1 h
    rw [← lept_parse_literal_true] at h
    exact lept_parse_literal_cursor (by decide) isCStr_true (by decide) h
  have hfalse : ∀ st c1 (v1 : lept_value F), lept_parse_false c v = some (st, c1, v1) →
      c1.json <:+ c.json ∧
        c.json.length = c1.json.length + (if st = LEPT_PARSE_OK then 5 else 1) := by
    intro st c1 v1 h
    rw [← lept_parse_literal_false] at h
    exact lept_parse_literal_cursor (by decide) isCStr_false (by decide) h
  have hnumber := lept_parse_number_cursor L c v
  refine ⟨List.dropWhile_suffix _, htrue, hfalse,
    fun st c1 v1 h => lept_parse_literal_cursor hl hc hlen h, hnumber.1, ?_⟩
  intro st c1 v1 h
  unfold lept_parse_value at h
  split at h
  · refine ⟨(htrue st c1 v1 h).1, fun hst hty => ?_⟩
    subst hst
    rw [← lept_parse_literal_true] at h
    rw [lept_parse_literal_tag h] at hty
    exact absurd hty (by decide)
  · split at h
    · refine ⟨(hfalse st c1 v1 h).1, fun hst hty => ?_⟩
      subst hst
      rw [← lept_parse_literal_false] at h
      rw [lept_parse_literal_tag h] at hty
      exact absurd hty (by decide)
    · split at h
      · refine ⟨(lept_parse_literal_cursor (by decide) isCStr_null (by decide) h).1,
          fun hst hty => ?_⟩
        subst hst
        rw [lept_parse_literal_tag h] at hty
        exact absurd hty (by decide)
      · split at h
        · simp only [Option.some.injEq, Prod.mk.injEq] at h
          obtain ⟨h1, h2, -⟩ := h
          subst h1 h2
          exact ⟨List.suffix_refl _, fun hst => absurd hst (by decide)⟩
        · simp only [Option.some.injEq] at h
          have e1 : (lept_parse_number L c v).1 = st := congrArg (fun r => r.1) h
          have e2 : (lept_parse_number L c v).2.1 = c1 := congrArg (fun r => r.2.1) h
          rw [← e2]
          refine ⟨hnumber.1, fun hst _ => ?_⟩
          exact (hnumber.2.1 (e1.trans hst)).1

theorem cursor_moves_forward_witness :
    ([' ', 'x'] <:+ "null x".toList ∧
      "null x".toList.length
        = [' ', 'x'].length
          + (if LEPT_PARSE_OK = LEPT_PARSE_OK then "null".toList.length else 1)) ∧
    (([] : List Char) <:+ "12.5".toList ∧
      (LEPT_PARSE_OK = LEPT_PARSE_OK → LEPT_NUMBER = LEPT_NUMBER → peek [] = NUL)) :=
  ⟨(cursor_moves_forward sampleLibc { json := "null x".toList } v0 "null".toList LEPT_NULL
      (by decide) (by decide) (by decide)).2.2.2.1 LEPT_PARSE_OK { json := [' ', 'x'] }
      { n := v0.n, type := LEPT_NULL } (by decide),
    (cursor_moves_forward sampleLibc { json := "12.5".toList } v0 "null".toList LEPT_NULL
      (by decide) (by decide) (by decide)).2.2.2.2.2 LEPT_PARSE_OK { json := [] }
      { n := SampleDouble.finite false 125 (-1), type := LEPT_NUMBER } (by decide)⟩

/-! ## The checked reads against the cursor as a list -/

theorem terminator_index_eq {s : List Char} (hs : IsCStr s) :
    terminator_index s = s.length := by
  have h : s.takeWhile (fun ch => ch != NUL) = s := by
    rw [List.takeWhile_eq_self_iff]
    intro x hx
    have : x ≠ NUL := fun hc => hs (hc ▸ hx)
    simpa using this
  unfold terminator_index
  rw [h]

theorem read_at_eq {s : List Char} (hs : IsCStr s) {p : Nat} (hp : p ≤ s.length) :
    read_at s p = some (peek (s.drop p)) := by
  unfold read_at peek
  rw [terminator_index_eq hs, if_pos hp, List.headD_eq_head?_getD, List.head?_drop,
    List.getD_eq_getElem?_getD]

theorem read_at_none {s : List Char} (hs : IsCStr s) {p : Nat} (hp : s.length < p) :
    read_at s p = none := by
  unfold read_at
  rw [terminator_index_eq hs, if_neg (by omega)]

theorem cursor_advance {s : List Char} {p : Nat} (hp : p ≤ s.length)
    (h : peek (s.drop p) ≠ NUL) : p + 1 ≤ s.length ∧ s.drop (p + 1) = (s.drop p).tail := by
  refine ⟨?_, (List.tail_drop s p).symm⟩
  by_contra hc
  have : s.drop p = [] := List.drop_eq_nil_of_le (by omega)
  rw [this] at h
  exact h rfl

theorem skip_while_at_eq {s : List Char} (hs : IsCStr s) {f : Char → Bool}
    (hf : f NUL = false) (fuel p : Nat) (hp : p ≤ s.length) (hfuel : s.length - p < fuel) :
    ∃ q, skip_while_at s f fuel p = some q ∧ q ≤ s.length ∧ p ≤ q ∧
      s.drop q = (s.drop p).dropWhile f := by
  induction fuel generalizing p with
  | zero => omega
  | succ fuel ih =>
    unfold skip_while_at
    rw [read_at_eq hs hp]
    dsimp only
    by_cases hc : f (peek (s.drop p)) = true
    · have hne : peek (s.drop p) ≠ NUL := by
        intro h0
        rw [h0, hf] at hc
        exact absurd hc (by decide)
      obtain ⟨h1, h2⟩ := cursor_advance hp hne
      obtain ⟨q, e1, e2, e3, e4⟩ := ih (p + 1) h1 (by omega)
      refine ⟨q, by rw [if_pos hc]; exact e1, e2, by omega, ?_⟩
      rw [e4, h2]
      conv_rhs => rw [peek_eq_cons rfl hne, List.dropWhile_cons, if_pos hc]
    · refine ⟨p, by rw [if_neg hc], hp, le_refl _, ?_⟩
      cases hd : s.drop p with
      | nil => rfl
      | cons a t =>
        rw [hd] at hc
        simp only [peek_cons] at hc
        simp [List.dropWhile_cons, hc]

/-- The comparison of the text `l` with the expected characters, as a list. -/
theorem mismatch_at_eq {s : List Char} (hs : IsCStr s) (es : List Char) (hes : IsCStr es)
    (p : Nat) (hp : p ≤ s.length) :
    ∃ b, mismatch_at s p es = some b ∧
      (b = false ↔ (s.drop p).take es.length = es) ∧
      (b = false → p + es.length ≤ s.length) := by
  induction es generalizing p with
  | nil => exact ⟨false, rfl, by simp, fun _ => hp⟩
  | cons e es ih =>
    have he : e ≠ NUL := fun hc => hes (hc ▸ List.mem_cons_self e es)
    have hes2 : IsCStr es := cstr_tail hes
    unfold mismatch_at
    rw [read_at_eq hs hp]
    dsimp only
    by_cases hc : peek (s.drop p) = e
    · have hne : peek (s.drop p) ≠ NUL := hc ▸ he
      obtain ⟨h1, h2⟩ := cursor_advance hp hne
      obtain ⟨b, e1, e2, e3⟩ := ih hes2 (p + 1) h1
      have hcons : s.drop p = e :: s.drop (p + 1) := by
        rw [h2, ← hc]
        exact peek_eq_cons rfl hne
      refine ⟨b, by simp [hc, e1], ?_, ?_⟩
      · rw [e2, hcons]
        simp
      · intro hb
        have := e3 hb
        simp only [List.length_cons]
        omega
    · refine ⟨true, by simp [hc], ?_, by simp⟩
      simp only [Bool.true_eq_false, false_iff]
      intro h
      apply hc
      cases hd : s.drop p with
      | nil =>
        rw [hd] at h
        simp at h
      | cons a t =>
        rw [hd] at h
        simp only [List.length_cons, List.take_succ_cons, List.cons.injEq] at h
        simpa using h.1

theorem chain3_iff (l : List Char) {a b c : Char} (ha : a ≠ NUL) (hb : b ≠ NUL)
    (hc : c ≠ NUL) :
    (at_index l 0 != a || at_index l 1 != b || at_index l 2 != c) = false ↔
      l.take 3 = [a, b, c] := by
  rcases l with _ | ⟨x, _ | ⟨y, _ | ⟨z, t⟩⟩⟩ <;>
    simp [at_index, Ne.symm ha, Ne.symm hb, Ne.symm hc, and_assoc]

theorem chain4_iff (l : List Char) {a b c d : Char} (ha : a ≠ NUL) (hb : b ≠ NUL)
    (hc : c ≠ NUL) (hd : d ≠ NUL) :
    (at_index l 0 != a || at_index l 1 != b || at_index l 2 != c || at_index l 3 != d) = false ↔
      l.take 4 = [a, b, c, d] := by
  rcases l with _ | ⟨x, _ | ⟨y, _ | ⟨z, _ | ⟨w, t⟩⟩⟩⟩ <;>
    simp [at_index, Ne.symm ha, Ne.symm hb, Ne.symm hc, Ne.symm hd, and_assoc]

/-- The position `q` of the checked run stands for the cursor `s.drop q`. -/
theorem lept_parse_true_at_eq {F : Type} {s : List Char} (hs : IsCStr s) {p : Nat}
    (hp : p ≤ s.length) (v : lept_value F) :
    ∃ r, lept_parse_true_at s p v = r ∧
      r.map (fun x => (x.1, lept_context.mk (s.drop x.2.1), x.2.2))
        = lept_parse_true { json := s.drop p } v ∧
      ∀ x, r = some x → x.2.1 ≤ s.length := by
  unfold lept_parse_true_at lept_parse_true EXPECT_at EXPECT
  rw [read_at_eq hs hp]
  dsimp only
  by_cases h : peek (s.drop p) = 't'
  · obtain ⟨h1, h2⟩ := cursor_advance hp (by rw [h]; decide)
    obtain ⟨b, e1, e2, e3⟩ := mismatch_at_eq hs ['r', 'u', 'e'] (by decide) (p + 1) h1
    have e4 := chain3_iff (s.drop (p + 1)) (a := 'r') (b := 'u') (c := 'e')
      (by decide) (by decide) (by decide)
    simp only [h, if_true, e1, ← h2]
    cases b with
    | true =>
      have hcond : (at_index (s.drop (p + 1)) 0 != 'r' || at_index (s.drop (p + 1)) 1 != 'u'
          || at_index (s.drop (p + 1)) 2 != 'e') = true := by
        by_contra hc
        have := e2.mpr (e4.mp (by simpa using hc))
        exact absurd this (by decide)
      refine ⟨_, rfl, ?_, ?_⟩
      · rw [if_pos hcond]
        rfl
      · intro x hx
        simp only [Option.some.injEq] at hx
        rw [← hx]
        exact h1
    | false =>
      have hcond : ¬ (at_index (s.drop (p + 1)) 0 != 'r' || at_index (s.drop (p + 1)) 1 != 'u'
          || at_index (s.drop (p + 1)) 2 != 'e') = true := by
        have := e4.mpr (e2.mp rfl)
        simp [this]
      refine ⟨_, rfl, ?_, ?_⟩
      · rw [if_neg hcond]
        simp [List.drop_drop, Nat.add_comm]
      · intro x hx
        simp only [Option.some.injEq] at hx
        rw [← hx]
        have := e3 rfl
        simpa using this
  · simp [h]

theorem lept_parse_false_at_eq {F : Type} {s : List Char} (hs : IsCStr s) {p : Nat}
    (hp : p ≤ s.length) (v : lept_value F) :
    ∃ r, lept_parse_false_at s p v = r ∧
      r.map (fun x => (x.1, lept_context.mk (s.drop x.2.1), x.2.2))
        = lept_parse_false { json := s.drop p } v ∧
      ∀ x, r = some x → x.2.1 ≤ s.length := by
  unfold lept_parse_false_at lept_parse_false EXPECT_at EXPECT
  rw [read_at_eq hs hp]
  dsimp only
  by_cases h : peek (s.drop p) = 'f'
  · obtain ⟨h1, h2⟩ := cursor_advance hp (by rw [h]; decide)
    obtain ⟨b, e1, e2, e3⟩ := mismatch_at_eq hs ['a', 'l', 's', 'e'] (by decide) (p + 1) h1
    have e4 := chain4_iff (s.drop (p + 1)) (a := 'a') (b := 'l') (c := 's') (d := 'e')
      (by decide) (by decide) (by decide) (by decide)
    simp only [h, if_true, e1, ← h2]
    cases b with
    | true =>
      have hcond : (at_index (s.drop (p + 1)) 0 != 'a' || at_index (s.drop (p + 1)) 1 != 'l'
          || at_index (s.drop (p + 1)) 2 != 's' || at_index (s.drop (p + 1)) 3 != 'e')
          = true := by
        by_contra hc
        have := e2.mpr (e4.mp (by simpa using hc))
        exact absurd this (by decide)
      refine ⟨_, rfl, ?_, ?_⟩
      · rw [if_pos hcond]
        rfl
      · intro x hx
        simp only [Option.some.injEq] at hx
        rw [← hx]
        exact h1
    | false =>
      have hcond : ¬ (at_index (s.drop (p + 1)) 0 != 'a' || at_index (s.drop (p + 1)) 1 != 'l'
          || at_index (s.drop (p + 1)) 2 != 's' || at_index (s.drop (p + 1)) 3 != 'e')
          = true := by
        have := e4.mpr (e2.mp rfl)
        simp [this]
      refine ⟨_, rfl, ?_, ?_⟩
      · rw [if_neg hcond]
        simp [List.drop_drop, Nat.add_comm]
      · intro x hx
        simp only [Option.some.injEq] at hx
        rw [← hx]
        have := e3 rfl
        simpa using this
  · simp [h]

theorem lept_parse_null_at_eq {F : Type} {s : List Char} (hs : IsCStr s) {p : Nat}
    (hp : p ≤ s.length) (v : lept_value F) :
    ∃ r, lept_parse_literal_at s p v "null".toList LEPT_NULL = r ∧
      r.map (fun x => (x.1, lept_context.mk (s.drop x.2.1), x.2.2))
        = lept_parse_literal { json := s.drop p } v "null".toList LEPT_NULL ∧
      ∀ x, r = some x → x.2.1 ≤ s.length := by
  have k0 : at_index "null".toList 0 = 'n' := by decide
  have k1 : strlen_minus_one "null".toList = 3 := by decide
  have k2 : (List.range 3).map (fun i => at_index "null".toList (i + 1)) = ['u', 'l', 'l'] := by
    decide
  rw [lept_parse_literal_null]
  unfold lept_parse_literal_at lept_parse_null EXPECT_at EXPECT
  rw [read_at_eq hs hp, k0, k1, k2]
  dsimp only
  by_cases h : peek (s.drop p) = 'n'
  · obtain ⟨h1, h2⟩ := cursor_advance hp (by rw [h]; decide)
    obtain ⟨b, e1, e2, e3⟩ := mismatch_at_eq hs ['u', 'l', 'l'] (by decide) (p + 1) h1
    have e4 := chain3_iff (s.drop (p + 1)) (a := 'u') (b := 'l') (c := 'l')
      (by decide) (by decide) (by decide)
    simp only [h, if_true, e1, ← h2]
    cases b with
    | true =>
      have hcond : (at_index (s.drop (p + 1)) 0 != 'u' || at_index (s.drop (p + 1)) 1 != 'l'
          || at_index (s.drop (p + 1)) 2 != 'l') = true := by
        by_contra hc
        have := e2.mpr (e4.mp (by simpa using hc))
        exact absurd this (by decide)
      refine ⟨_, rfl, ?_, ?_⟩
      · rw [if_pos hcond]
        rfl
      · intro x hx
        simp only [Option.some.injEq] at hx
        rw [← hx]
        exact h1
    | false =>
      have hcond : ¬ (at_index (s.drop (p + 1)) 0 != 'u' || at_index (s.drop (p + 1)) 1 != 'l'
          || at_index (s.drop (p + 1)) 2 != 'l') = true := by
        have := e4.mpr (e2.mp rfl)
        simp [this]
      refine ⟨_, rfl, ?_, ?_⟩
      · rw [if_neg hcond]
        simp [List.drop_drop, Nat.add_comm]
      · intro x hx
        simp only [Option.some.injEq] at hx
        rw [← hx]
        have := e3 rfl
        simpa using this
  · simp [h]

theorem ISDIGIT_NUL : ISDIGIT NUL = false := by decide

theorem digits_at_eq {s : List Char} (hs : IsCStr s) {fuel p : Nat} (hp : p ≤ s.length)
    (hfuel : s.length < fuel) :
    ∃ q, skip_while_at s ISDIGIT fuel p = some q ∧ q ≤ s.length ∧
      s.drop q = (s.drop p).dropWhile ISDIGIT := by
  obtain ⟨q, e1, e2, -, e4⟩ := skip_while_at_eq hs ISDIGIT_NUL fuel p hp (by omega)
  exact ⟨q, e1, e2, e4⟩

theorem check_int_at_eq {s : List Char} (hs : IsCStr s) {fuel p : Nat} (hp : p ≤ s.length)
    (hfuel : s.length < fuel) :
    ∃ r, check_int_at s fuel p = some r ∧ r.map (fun q => s.drop q) = check_int (s.drop p) ∧
      ∀ q, r = some q → q ≤ s.length := by
  unfold check_int_at check_int
  rw [read_at_eq hs hp]
  dsimp only
  by_cases h0 : peek (s.drop p) = '0'
  · obtain ⟨h1, h2⟩ := cursor_advance hp (by rw [h0]; decide)
    refine ⟨some (p + 1), by rw [if_pos h0], by rw [if_pos h0, ← h2]; rfl, ?_⟩
    intro q hq
    simp only [Option.some.injEq] at hq
    omega
  · by_cases h1 : ISDIGIT1TO9 (peek (s.drop p)) = true
    · obtain ⟨q, e1, e2, e3⟩ := digits_at_eq hs hp hfuel
      refine ⟨some q, by rw [if_neg h0, if_pos h1, e1]; rfl,
        by rw [if_neg h0, if_pos h1, ← e3]; rfl, ?_⟩
      intro q1 hq
      simp only [Option.some.injEq] at hq
      omega
    · exact ⟨none, by rw [if_neg h0, if_neg h1], by rw [if_neg h0, if_neg h1]; rfl,
        fun q hq => by simp at hq⟩

theorem check_frac_at_eq {s : List Char} (hs : IsCStr s) {fuel p : Nat} (hp : p ≤ s.length)
    (hfuel : s.length < fuel) :
    ∃ r, check_frac_at s fuel p = some r ∧
      r.map (fun q => s.drop q) = check_frac (s.drop p) ∧
      ∀ q, r = some q → q ≤ s.length := by
  unfold check_frac_at check_frac
  rw [read_at_eq hs hp]
  dsimp only
  by_cases h0 : peek (s.drop p) = '.'
  · obtain ⟨h1, h2⟩ := cursor_advance hp (by rw [h0]; decide)
    rw [if_pos h0, if_pos h0, read_at_eq hs h1, ← h2]
    dsimp only
    by_cases hd : (!ISDIGIT (peek (s.drop (p + 1)))) = true
    · exact ⟨none, by rw [if_pos hd], by rw [if_pos hd]; rfl, fun q hq => by simp at hq⟩
    · obtain ⟨q, e1, e2, e3⟩ := digits_at_eq hs h1 hfuel
      refine ⟨some q, by rw [if_neg hd, e1]; rfl, by rw [if_neg hd, ← e3]; rfl, ?_⟩
      intro q1 hq
      simp only [Option.some.injEq] at hq
      omega
  · refine ⟨some p, by rw [if_neg h0], by rw [if_neg h0]; rfl, ?_⟩
    intro q hq
    simp only [Option.some.injEq] at hq
    omega

theorem check_exp_at_eq {s : List Char} (hs : IsCStr s) {fuel p : Nat} (hp : p ≤ s.length)
    (hfuel : s.length < fuel) :
    ∃ r, check_exp_at s fuel p = some r ∧
      r.map (fun q => s.drop q) = check_exp (s.drop p) ∧
      ∀ q, r = some q → q ≤ s.length := by
  unfold check_exp_at check_exp
  rw [read_at_eq hs hp]
  dsimp only
  by_cases h0 : peek (s.drop p) = 'e' ∨ peek (s.drop p) = 'E'
  · have hne : peek (s.drop p) ≠ NUL := by
      rcases h0 with h | h <;> rw [h] <;> decide
    obtain ⟨h1, h2⟩ := cursor_advance hp hne
    rw [if_pos h0, if_pos h0, read_at_eq hs h1, ← h2]
    dsimp only
    -- the position after the optional sign
    have hsign : ∃ q, (if peek (s.drop (p + 1)) = '-' ∨ peek (s.drop (p + 1)) = '+'
          then p + 2 else p + 1) = q ∧ q ≤ s.length ∧
        s.drop q = (if peek (s.drop (p + 1)) = '-' ∨ peek (s.drop (p + 1)) = '+'
          then (s.drop (p + 1)).tail else s.drop (p + 1)) := by
      by_cases hsg : peek (s.drop (p + 1)) = '-' ∨ peek (s.drop (p + 1)) = '+'
      · have hne2 : peek (s.drop (p + 1)) ≠ NUL := by
          rcases hsg with h | h <;> rw [h] <;> decide
        obtain ⟨h3, h4⟩ := cursor_advance h1 hne2
        exact ⟨p + 2, by rw [if_pos hsg], h3, by rw [if_pos hsg]; exact h4⟩
      · exact ⟨p + 1, by rw [if_neg hsg], h1, by rw [if_neg hsg]⟩
    obtain ⟨q, hq1, hq2, hq3⟩ := hsign
    rw [hq1, ← hq3, read_at_eq hs hq2]
    dsimp only
    by_cases hd : (!ISDIGIT (peek (s.drop q))) = true
    · exact ⟨none, by rw [if_pos hd], by rw [if_pos hd]; rfl, fun q hq => by simp at hq⟩
    · obtain ⟨q2, e1, e2, e3⟩ := digits_at_eq hs hq2 hfuel
      refine ⟨some q2, by rw [if_neg hd, e1]; rfl, by rw [if_neg hd, ← e3]; rfl, ?_⟩
      intro q1 hq
      simp only [Option.some.injEq] at hq
      omega
  · refine ⟨some p, by rw [if_neg h0], by rw [if_neg h0]; rfl, ?_⟩
    intro q hq
    simp only [Option.some.injEq] at hq
    omega

theorem is_json_format_at_eq {s : List Char} (hs : IsCStr s) {fuel p : Nat}
    (hp : p ≤ s.length) (hfuel : s.length < fuel) :
    is_json_format_at s fuel p = some (is_json_format (s.drop p)) := by
  unfold is_json_format_at is_json_format
  rw [read_at_eq hs hp]
  dsimp only
  -- the position after the optional sign
  have hsign : ∃ q, (if peek (s.drop p) = '-' then p + 1 else p) = q ∧ q ≤ s.length ∧
      s.drop q = (if peek (s.drop p) = '-' then (s.drop p).tail else s.drop p) := by
    by_cases hsg : peek (s.drop p) = '-'
    · obtain ⟨h3, h4⟩ := cursor_advance hp (by rw [hsg]; decide)
      exact ⟨p + 1, by rw [if_pos hsg], h3, by rw [if_pos hsg]; exact h4⟩
    · exact ⟨p, by rw [if_neg hsg], hp, by rw [if_neg hsg]⟩
  obtain ⟨q, hq1, hq2, hq3⟩ := hsign
  rw [hq1, ← hq3]
  obtain ⟨r1, a1, a2, a3⟩ := check_int_at_eq hs hq2 hfuel
  rw [a1, ← a2]
  cases r1 with
  | none => rfl
  | some q1 =>
    have hq1 := a3 q1 rfl
    obtain ⟨r2, b1, b2, b3⟩ := check_frac_at_eq hs hq1 hfuel
    simp only [Option.map_some']
    rw [b1, ← b2]
    cases r2 with
    | none => rfl
    | some q2 =>
      have hq2 := b3 q2 rfl
      obtain ⟨r3, c1, c2, c3⟩ := check_exp_at_eq hs hq2 hfuel
      simp only [Option.map_some']
      rw [c1, ← c2]
      cases r3 with
      | none => rfl
      | some q3 =>
        have hq3 := c3 q3 rfl
        simp only [Option.map_some']
        rw [read_at_eq hs hq3]
        dsimp only
        split <;> rfl

theorem lept_parse_number_at_eq {F : Type} (L : Libc F) {s : List Char} (hs : IsCStr s)
    {fuel p : Nat} (hp : p ≤ s.length) (hfuel : s.length < fuel) (v : lept_value F) :
    ∃ x, lept_parse_number_at L s fuel p v = some x ∧
      (x.1, lept_context.mk (s.drop x.2.1), x.2.2)
        = lept_parse_number L { json := s.drop p } v ∧
      x.2.1 ≤ s.length := by
  unfold lept_parse_number_at lept_parse_number
  rw [is_json_format_at_eq hs hp hfuel]
  dsimp only
  by_cases hj : is_json_format (s.drop p) ≠ LEPT_PARSE_OK
  · exact ⟨_, by rw [if_pos hj], by rw [if_pos hj], hp⟩
  · rw [if_neg hj, if_neg hj]
    split
    · exact ⟨_, rfl, rfl, hp⟩
    · obtain ⟨q, e1, e2, -, e4⟩ :=
        skip_while_at_eq hs (f := fun ch => ch != NUL) (by decide) fuel p hp (by omega)
      rw [e1]
      exact ⟨_, rfl, by rw [← e4], e2⟩

theorem lept_parse_value_at_eq {F : Type} (L : Libc F) {s : List Char} (hs : IsCStr s)
    {fuel p : Nat} (hp : p ≤ s.length) (hfuel : s.length < fuel) (v : lept_value F) :
    ∃ r, lept_parse_value_at L s fuel p v = r ∧
      r.map (fun x => (x.1, lept_context.mk (s.drop x.2.1), x.2.2))
        = lept_parse_value L { json := s.drop p } v ∧
      ∀ x, r = some x → x.2.1 ≤ s.length := by
  unfold lept_parse_value_at lept_parse_value
  rw [read_at_eq hs hp]
  dsimp only
  split
  · exact lept_parse_true_at_eq hs hp v
  · split
    · exact lept_parse_false_at_eq hs hp v
    · split
      · exact lept_parse_null_at_eq hs hp v
      · split
        · refine ⟨_, rfl, rfl, ?_⟩
          intro x hx
          simp only [Option.some.injEq] at hx
          rw [← hx]
          exact hp
        · obtain ⟨x, e1, e2, e3⟩ := lept_parse_number_at_eq L hs hp hfuel v
          refine ⟨_, e1, by rw [← e2]; rfl, ?_⟩
          intro y hy
          simp only [Option.some.injEq] at hy
          rw [← hy]
          exact e3

/-- The run with checked reads and enough fuel is the run of `lept_parse`. -/
theorem lept_parse_at_eq {F : Type} (L : Libc F) (v : lept_value F) {s : List Char}
    (hs : IsCStr s) {fuel : Nat} (hfuel : s.length < fuel) :
    lept_parse_at L v s fuel = lept_parse L v s := by
  have hw : is_whitespace NUL = false := by decide
  unfold lept_parse_at lept_parse lept_parse_whitespace_at lept_parse_whitespace
  dsimp only
  obtain ⟨q, a1, a2, -, a4⟩ := skip_while_at_eq hs hw fuel 0 (Nat.zero_le _) (by omega)
  rw [List.drop_zero] at a4
  rw [a1, ← a4]
  dsimp only
  obtain ⟨r, b1, b2, b3⟩ :=
    lept_parse_value_at_eq L hs a2 hfuel ({ n := v.n, type := LEPT_NULL } : lept_value F)
  rw [b1, ← b2]
  cases r with
  | none => rfl
  | some x =>
    obtain ⟨ret, q2, v2⟩ := x
    have hq2 : q2 ≤ s.length := b3 _ rfl
    simp only [Option.map_some']
    by_cases hret : ret = LEPT_PARSE_OK
    · rw [if_pos hret, if_pos hret]
      obtain ⟨q3, c1, c2, -, c4⟩ := skip_while_at_eq hs hw fuel q2 hq2 (by omega)
      rw [c1, ← c4]
      dsimp only
      rw [read_at_eq hs c2]
    · rw [if_neg hret, if_neg hret]

/-- C18: no read past the end-of-input marker.  For every C string and enough
fuel for the loops, the run of `lept_parse` in which a read beyond the first
terminator has no value does return, and returns what `lept_parse` returns: every
read of `lept_parse_whitespace`, of the literal matchers, of `is_json_format` and
of the cursor advance of `lept_parse_number` is at an index up to that of the
terminator. -/
theorem lept_parse_reads_in_bounds {F : Type} (L : Libc F) (v : lept_value F)
    (s : List Char) (fuel : Nat) (hs : IsCStr s) (hfuel : s.length < fuel) :
    terminator_index s = s.length ∧
    (∀ i, (∃ ch, read_at s i = some ch) ↔ i ≤ terminator_index s) ∧
    lept_parse_at L v s fuel = lept_parse L v s ∧
    ∃ r, lept_parse_at L v s fuel = some r := by
  have hagree := lept_parse_at_eq L v hs hfuel
  refine ⟨terminator_index_eq hs, ?_, hagree, ?_⟩
  · intro i
    unfold read_at
    split <;> simp_all
  · rw [hagree]
    rcases lept_parse_cases L v s with ⟨-, h⟩ | ⟨_, _, _, _, -, -, h⟩ | ⟨-, h⟩ <;>
      exact ⟨_, h⟩

theorem lept_parse_reads_in_bounds_witness :
    (lept_parse_at sampleLibc v0 "t".toList 2
        = some (LEPT_PARSE_INVALID_VALUE, { n := v0.n, type := LEPT_NULL }) ∧
      lept_parse_at sampleLibc v0 "tr".toList 3
        = some (LEPT_PARSE_INVALID_VALUE, { n := v0.n, type := LEPT_NULL }) ∧
      lept_parse_at sampleLibc v0 "fa".toList 3
        = some (LEPT_PARSE_INVALID_VALUE, { n := v0.n, type := LEPT_NULL }) ∧
      lept_parse_at sampleLibc v0 "nu".toList 3
        = some (LEPT_PARSE_INVALID_VALUE, { n := v0.n, type := LEPT_NULL })) ∧
    (lept_parse_at sampleLibc v0 "t".toList 2 = lept_parse sampleLibc v0 "t".toList ∧
      lept_parse_at sampleLibc v0 "tr".toList 3 = lept_parse sampleLibc v0 "tr".toList ∧
      lept_parse_at sampleLibc v0 "fa".toList 3 = lept_parse sampleLibc v0 "fa".toList ∧
      lept_parse_at sampleLibc v0 "nu".toList 3 = lept_parse sampleLibc v0 "nu".toList) :=
  ⟨⟨by decide, by decide, by decide, by decide⟩,
    (lept_parse_reads_in_bounds sampleLibc v0 "t".toList 2 (by decide) (by decide)).2.2.1,
    (lept_parse_reads_in_bounds sampleLibc v0 "tr".toList 3 (by decide) (by decide)).2.2.1,
    (lept_parse_reads_in_bounds sampleLibc v0 "fa".toList 3 (by decide) (by decide)).2.2.1,
    (lept_parse_reads_in_bounds sampleLibc v0 "nu".toList 3 (by decide) (by decide)).2.2.1⟩

end LeptJson
